import Mathlib

/-!
Launchium token creator — verification of the launch pipeline.

Shallow embedding of the Launchium token-creation backend
(`TokenService.launchToken`, `validateTokenRequest`, `IpfsService.uploadJson`
/ `createDataUri`, `WalletService.getMasterKeypair`, `formatTokenAmount`,
`config`) together with theorems settling the frozen claims about it.

Numbers are modelled as `Nat` (JS `bigint` values in the source are
non-negative in every claim considered); strings as Lean `String`
(sequences of Unicode scalar values), with an explicit UTF-16 length
function where JavaScript's `.length` matters.
-/

namespace Launchium

/-! ## Positional digit strings (shared by base-58, decimal printing, JSON) -/

/-- Value of a little-endian digit list in base `b`. -/
def ofDigitsLE (b : Nat) : List Nat → Nat
  | [] => 0
  | d :: ds => d + b * ofDigitsLE b ds

/-- Little-endian digits of `n` in base `b`, with explicit fuel (so the
kernel can evaluate it); `n` itself is always enough fuel. -/
def toDigitsLEAux (b : Nat) : Nat → Nat → List Nat
  | 0, _ => []
  | fuel + 1, n =>
      if n = 0 ∨ b ≤ 1 then [] else n % b :: toDigitsLEAux b fuel (n / b)

/-- Little-endian digits of `n` in base `b` (empty for `n = 0`). -/
def toDigitsLE (b n : Nat) : List Nat := toDigitsLEAux b n n

theorem toDigitsLEAux_fuel_irrel (b : Nat) :
    ∀ n fuel1 fuel2, n ≤ fuel1 → n ≤ fuel2 →
      toDigitsLEAux b fuel1 n = toDigitsLEAux b fuel2 n := by
  intro n
  induction n using Nat.strongRecOn with
  | _ n ih =>
    intro fuel1 fuel2 h1 h2
    cases fuel1 with
    | zero =>
      have : n = 0 := by omega
      subst this
      cases fuel2 with
      | zero => rfl
      | succ f2 => rw [toDigitsLEAux]; simp [toDigitsLEAux]
    | succ f1 =>
      cases fuel2 with
      | zero =>
        have : n = 0 := by omega
        subst this
        rw [toDigitsLEAux]
        simp [toDigitsLEAux]
      | succ f2 =>
        rw [toDigitsLEAux, toDigitsLEAux]
        by_cases h : n = 0 ∨ b ≤ 1
        · simp [h]
        · simp only [h, if_neg, not_false_iff]
          have hb : 2 ≤ b := by omega
          have hn : 0 < n := by omega
          have hlt : n / b < n := Nat.div_lt_self hn hb
          rw [ih (n / b) hlt f1 f2 (by omega) (by omega)]

/-- One-step unfolding of `toDigitsLE`. -/
theorem toDigitsLE_step (b n : Nat) :
    toDigitsLE b n =
      if n = 0 ∨ b ≤ 1 then [] else n % b :: toDigitsLE b (n / b) := by
  rw [toDigitsLE]
  cases n with
  | zero => rw [toDigitsLEAux]; simp [toDigitsLEAux]
  | succ m =>
    rw [toDigitsLEAux]
    by_cases h : m + 1 = 0 ∨ b ≤ 1
    · rw [if_pos h, if_pos h]
    · rw [if_neg h, if_neg h]
      have hb : 2 ≤ b := by omega
      have hlt : (m + 1) / b < m + 1 := Nat.div_lt_self (by omega) hb
      rw [toDigitsLE,
        toDigitsLEAux_fuel_irrel b ((m + 1) / b) m ((m + 1) / b)
          (by omega) (by omega)]

theorem toDigitsLE_zero (b : Nat) : toDigitsLE b 0 = [] := by
  rw [toDigitsLE_step]; simp

theorem toDigitsLE_ne_nil (b n : Nat) (hb : 2 ≤ b) (hn : 0 < n) :
    toDigitsLE b n ≠ [] := by
  rw [toDigitsLE_step]
  have : ¬(n = 0 ∨ b ≤ 1) := by omega
  simp [this]

theorem ofDigitsLE_toDigitsLE (b n : Nat) (hb : 2 ≤ b) :
    ofDigitsLE b (toDigitsLE b n) = n := by
  induction n using Nat.strongRecOn with
  | _ n ih =>
    rw [toDigitsLE_step]
    by_cases h : n = 0 ∨ b ≤ 1
    · have : n = 0 := by omega
      simp [this, ofDigitsLE]
    · rw [if_neg h]
      have hn : 0 < n := by omega
      rw [ofDigitsLE, ih (n / b) (Nat.div_lt_self hn hb)]
      exact Nat.mod_add_div n b

/-- Digits produced by `toDigitsLE` are below the base. -/
theorem toDigitsLE_lt (b n : Nat) (hb : 2 ≤ b) :
    ∀ d ∈ toDigitsLE b n, d < b := by
  induction n using Nat.strongRecOn with
  | _ n ih =>
    rw [toDigitsLE_step]
    by_cases h : n = 0 ∨ b ≤ 1
    · simp [h]
    · rw [if_neg h]
      simp only [List.mem_cons]
      intro d hd
      rcases hd with hd | hd
      · subst hd; exact Nat.mod_lt _ (by omega)
      · have hn : 0 < n := by omega
        exact ih (n / b) (Nat.div_lt_self hn hb) d hd

/-- The most significant digit (the last little-endian digit) is nonzero. -/
theorem toDigitsLE_getLast? (b n : Nat) (hb : 2 ≤ b) (hn : 0 < n) :
    (toDigitsLE b n).getLast? ≠ some 0 := by
  induction n using Nat.strongRecOn with
  | _ n ih =>
    rw [toDigitsLE_step]
    have hcase : ¬(n = 0 ∨ b ≤ 1) := by omega
    rw [if_neg hcase]
    by_cases hq : n / b = 0
    · have htail : toDigitsLE b (n / b) = [] := by rw [hq, toDigitsLE_zero]
      have h2 := Nat.mod_add_div n b
      rw [hq, Nat.mul_zero, Nat.add_zero] at h2
      simp [htail, h2]
      omega
    · have hqpos : 0 < n / b := Nat.pos_of_ne_zero hq
      have htl : toDigitsLE b (n / b) ≠ [] :=
        toDigitsLE_ne_nil b (n / b) hb hqpos
      rcases List.exists_cons_of_ne_nil htl with ⟨e, es, hes⟩
      rw [hes, List.getLast?_cons_cons, ← hes]
      exact ih (n / b) (Nat.div_lt_self hn hb) hqpos

/-- Inverse direction: a digit list with digits below the base and a nonzero
most significant digit is recovered from its value. -/
theorem toDigitsLE_ofDigitsLE (b : Nat) (hb : 2 ≤ b) :
    ∀ l : List Nat, (∀ d ∈ l, d < b) → l.getLast? ≠ some 0 →
      toDigitsLE b (ofDigitsLE b l) = l := by
  intro l
  induction l with
  | nil => intro _ _; simp [ofDigitsLE, toDigitsLE_zero]
  | cons d ds ih =>
    intro hlt hlast
    have hd : d < b := hlt d (List.mem_cons_self d ds)
    rw [ofDigitsLE, toDigitsLE_step]
    have hvpos : ¬(d + b * ofDigitsLE b ds = 0 ∨ b ≤ 1) := by
      push_neg
      refine ⟨?_, by omega⟩
      intro hzero
      have hdz : d = 0 := by omega
      have hdsz : ofDigitsLE b ds = 0 := by
        rcases Nat.mul_eq_zero.mp (by omega : b * ofDigitsLE b ds = 0) with h | h
        · omega
        · exact h
      cases ds with
      | nil => simp [hdz] at hlast
      | cons e es =>
        have hlast' : (e :: es).getLast? ≠ some 0 := by
          rwa [List.getLast?_cons_cons] at hlast
        have hds : toDigitsLE b (ofDigitsLE b (e :: es)) = e :: es := by
          apply ih
          · intro x hx; exact hlt x (List.mem_cons_of_mem d hx)
          · exact hlast'
        rw [hdsz, toDigitsLE_zero] at hds
        exact absurd hds.symm (by simp)
    rw [if_neg hvpos]
    have hmod : (d + b * ofDigitsLE b ds) % b = d := by
      rw [Nat.add_mul_mod_self_left]
      exact Nat.mod_eq_of_lt hd
    have hdiv : (d + b * ofDigitsLE b ds) / b = ofDigitsLE b ds := by
      rw [Nat.add_mul_div_left _ _ (by omega : 0 < b)]
      rw [Nat.div_eq_of_lt hd]
      omega
    rw [hmod, hdiv]
    congr 1
    cases ds with
    | nil => simp [ofDigitsLE, toDigitsLE_zero]
    | cons e es =>
      apply ih
      · intro x hx; exact hlt x (List.mem_cons_of_mem d hx)
      · rwa [List.getLast?_cons_cons] at hlast

/-- Big-endian value, as the JavaScript decoders compute it:
`foldl (acc * b + digit)`. -/
def ofDigitsBE (b : Nat) (l : List Nat) : Nat :=
  l.foldl (fun acc d => acc * b + d) 0

theorem foldl_digits_acc (b : Nat) (l : List Nat) (a : Nat) :
    l.foldl (fun acc d => acc * b + d) a =
      a * b ^ l.length + ofDigitsBE b l := by
  induction l generalizing a with
  | nil => simp [ofDigitsBE]
  | cons d ds ih =>
    simp only [List.foldl, ofDigitsBE]
    rw [ih (a * b + d), ih (0 * b + d)]
    simp only [List.length_cons, ofDigitsBE, Nat.zero_mul, Nat.zero_add,
      pow_succ]
    ring

theorem ofDigitsBE_reverse (b : Nat) (l : List Nat) :
    ofDigitsBE b l.reverse = ofDigitsLE b l := by
  induction l with
  | nil => simp [ofDigitsBE, ofDigitsLE]
  | cons d ds ih =>
    simp only [List.reverse_cons, ofDigitsLE, ← ih, ofDigitsBE,
      List.foldl_append, List.foldl]
    rw [foldl_digits_acc]
    simp [List.length_reverse]
    ring

/-- Big-endian digits of `n`: most significant first, empty for `0`. -/
def toDigitsBE (b n : Nat) : List Nat := (toDigitsLE b n).reverse

theorem ofDigitsBE_toDigitsBE (b n : Nat) (hb : 2 ≤ b) :
    ofDigitsBE b (toDigitsBE b n) = n := by
  rw [toDigitsBE, ofDigitsBE_reverse, ofDigitsLE_toDigitsLE b n hb]

theorem toDigitsBE_ofDigitsBE (b : Nat) (hb : 2 ≤ b) (l : List Nat)
    (hlt : ∀ d ∈ l, d < b) (hhead : l.head? ≠ some 0) :
    toDigitsBE b (ofDigitsBE b l) = l := by
  have hrev : ofDigitsBE b l = ofDigitsLE b l.reverse := by
    rw [← ofDigitsBE_reverse, List.reverse_reverse]
  rw [toDigitsBE, hrev, toDigitsLE_ofDigitsLE b hb l.reverse]
  · exact List.reverse_reverse l
  · intro d hd; exact hlt d (List.mem_reverse.mp hd)
  · rwa [List.getLast?_reverse]

theorem toDigitsBE_head? (b n : Nat) (hb : 2 ≤ b) :
    (toDigitsBE b n).head? ≠ some 0 := by
  rw [toDigitsBE, List.head?_reverse]
  by_cases hn : 0 < n
  · exact toDigitsLE_getLast? b n hb hn
  · have : n = 0 := by omega
    simp [this, toDigitsLE_zero]

theorem toDigitsBE_lt (b n : Nat) (hb : 2 ≤ b) :
    ∀ d ∈ toDigitsBE b n, d < b := by
  intro d hd
  exact toDigitsLE_lt b n hb d (List.mem_reverse.mp hd)

/-! ## Decimal digit strings (JS `bigint.toString()` / `Number.toString` on
integers) -/

/-- The character for a decimal digit. -/
def digitChar (d : Nat) : Char := Char.ofNat ('0'.toNat + d)

/-- Big-endian decimal digits of `n`; `[0]` for `0` (as `toString` prints
`"0"`). -/
def natDigits (n : Nat) : List Nat :=
  if n = 0 then [0] else toDigitsBE 10 n

/-- The characters of the decimal representation of `n`, as produced by
JavaScript's `toString` on a non-negative `bigint` or integral `number`. -/
def natToChars (n : Nat) : List Char := (natDigits n).map digitChar

/-- Decimal representation of `n` as a string. -/
def natToString (n : Nat) : String := ⟨natToChars n⟩

theorem natDigits_lt (n : Nat) : ∀ d ∈ natDigits n, d < 10 := by
  intro d hd
  rw [natDigits] at hd
  by_cases h : n = 0
  · simp [h] at hd; omega
  · simp only [h, if_neg, not_false_iff] at hd
    exact toDigitsBE_lt 10 n (by omega) d hd

theorem ofDigitsBE_natDigits (n : Nat) : ofDigitsBE 10 (natDigits n) = n := by
  rw [natDigits]
  by_cases h : n = 0
  · simp [h, ofDigitsBE]
  · simp only [h, if_neg, not_false_iff]
    exact ofDigitsBE_toDigitsBE 10 n (by omega)

theorem natDigits_ne_nil (n : Nat) : natDigits n ≠ [] := by
  rw [natDigits]
  by_cases h : n = 0
  · simp [h]
  · simp only [h, if_neg, not_false_iff]
    rw [toDigitsBE]
    simp only [ne_eq, List.reverse_eq_nil_iff]
    exact toDigitsLE_ne_nil 10 n (by omega) (by omega)

/-- Digit count bound: `n < 10 ^ k` gives at most `k` digits. -/
theorem toDigitsLE_length_le (b n k : Nat) (hb : 2 ≤ b) (h : n < b ^ k) :
    (toDigitsLE b n).length ≤ k := by
  induction n using Nat.strongRecOn generalizing k with
  | _ n ih =>
    rw [toDigitsLE_step]
    by_cases hz : n = 0 ∨ b ≤ 1
    · simp [hz]
    · rw [if_neg hz]
      simp only [List.length_cons]
      have hn : 0 < n := by omega
      cases k with
      | zero =>
        simp at h
        omega
      | succ k =>
        have hk : n / b < b ^ k := by
          rw [Nat.div_lt_iff_lt_mul (by omega : 0 < b)]
          calc n < b ^ (k + 1) := h
            _ = b ^ k * b := by rw [pow_succ]
        have := ih (n / b) (Nat.div_lt_self hn hb) k hk
        omega

/-! ## `formatTokenAmount` (src/unnamed/part_003, lines 77–89)

```ts
export function formatTokenAmount(amount: bigint, decimals: number): string {
  const divisor = 10n ** BigInt(decimals);
  const whole = amount / divisor;
  const fraction = amount % divisor;
  if (fraction === 0n) {
    return whole.toString();
  } else {
    const fractionStr = fraction.toString().padStart(decimals, '0');
    const trimmed = fractionStr.replace(/0+$/, '');
    return `${whole}.${trimmed}`;
  }
}
```
-/

/-- JS `String.prototype.padStart` with a single pad character, on char lists. -/
def padStart (l : List Char) (len : Nat) (c : Char) : List Char :=
  List.replicate (len - l.length) c ++ l

/-- The source's `s.replace(/0+$/, '')`: remove all trailing `'0'` characters. -/
def trimTrailingZeros (l : List Char) : List Char :=
  (l.reverse.dropWhile (· = '0')).reverse

/-- The function `formatTokenAmount` from the source, on `Nat` amounts. -/
def formatTokenAmount (amount decimals : Nat) : String :=
  let divisor := 10 ^ decimals
  let whole := amount / divisor
  let fraction := amount % divisor
  if fraction = 0 then
    natToString whole
  else
    let fractionStr := padStart (natToChars fraction) decimals '0'
    let trimmed := trimTrailingZeros fractionStr
    ⟨natToChars whole ++ '.' :: trimmed⟩

/-! Decoder: read a decimal string (with at most one dot) back as a rational
number. -/

def isDigitChar (c : Char) : Bool := '0' ≤ c && c ≤ '9'

/-- Value of a run of decimal digit characters (big-endian). -/
def digitsVal (l : List Char) : Nat :=
  ofDigitsBE 10 (l.map fun c => c.toNat - '0'.toNat)

/-- Parse a nonempty all-digit character run. -/
def parseDigits (l : List Char) : Option Nat :=
  if l ≠ [] ∧ l.all isDigitChar then some (digitsVal l) else none

/-- Interpret a decimal string (`whole` or `whole.frac`) as a rational. -/
def decodeDecimal (s : String) : Option ℚ :=
  let l := s.toList
  let w := l.takeWhile (· ≠ '.')
  let rest := l.dropWhile (· ≠ '.')
  if rest = [] then (parseDigits w).map (fun n => (n : ℚ))
  else
    let frac := rest.tail
    match parseDigits w, parseDigits frac with
    | some wv, some fv =>
        some ((wv : ℚ) + (fv : ℚ) / (10 : ℚ) ^ frac.length)
    | _, _ => none

theorem digitChar_isDigit {d : Nat} (h : d < 10) :
    isDigitChar (digitChar d) = true := by
  interval_cases d <;> decide

theorem digitChar_val {d : Nat} (h : d < 10) :
    (digitChar d).toNat - '0'.toNat = d := by
  interval_cases d <;> decide

theorem digitChar_ne_dot {d : Nat} (h : d < 10) : digitChar d ≠ '.' := by
  interval_cases d <;> decide

theorem digitsVal_map (l : List Nat) (h : ∀ d ∈ l, d < 10) :
    digitsVal (l.map digitChar) = ofDigitsBE 10 l := by
  rw [digitsVal, List.map_map]
  congr 1
  have : List.map ((fun c => c.toNat - '0'.toNat) ∘ digitChar) l =
      List.map id l :=
    List.map_congr_left (fun d hd => by simpa using digitChar_val (h d hd))
  rw [this, List.map_id]

theorem all_isDigit_map (l : List Nat) (h : ∀ d ∈ l, d < 10) :
    (l.map digitChar).all isDigitChar = true := by
  rw [List.all_eq_true]
  intro c hc
  rcases List.mem_map.mp hc with ⟨d, hd, rfl⟩
  exact digitChar_isDigit (h d hd)

theorem parseDigits_natToChars (n : Nat) :
    parseDigits (natToChars n) = some n := by
  rw [parseDigits, natToChars]
  have hnil : (natDigits n).map digitChar ≠ [] := by
    simp [natDigits_ne_nil n]
  rw [if_pos ⟨hnil, all_isDigit_map _ (natDigits_lt n)⟩]
  rw [digitsVal_map _ (natDigits_lt n), ofDigitsBE_natDigits]

theorem takeWhile_append_not (p : Char → Bool) (l1 l2 : List Char) (c : Char)
    (h1 : ∀ a ∈ l1, p a = true) (hc : p c = false) :
    (l1 ++ c :: l2).takeWhile p = l1 ∧ (l1 ++ c :: l2).dropWhile p = c :: l2 := by
  induction l1 with
  | nil => simp [List.takeWhile, List.dropWhile, hc]
  | cons a as ih =>
    have ha : p a = true := h1 a (List.mem_cons_self a as)
    have := ih (fun x hx => h1 x (List.mem_cons_of_mem a hx))
    simp [List.takeWhile, List.dropWhile, ha, this.1, this.2]

theorem digitsVal_append (l1 l2 : List Char) :
    digitsVal (l1 ++ l2) = digitsVal l1 * 10 ^ l2.length + digitsVal l2 := by
  rw [digitsVal, digitsVal, digitsVal, List.map_append, ofDigitsBE,
    List.foldl_append]
  rw [foldl_digits_acc]
  simp [ofDigitsBE]

theorem digitsVal_replicate_zero (z : Nat) :
    digitsVal (List.replicate z '0') = 0 := by
  induction z with
  | zero => rfl
  | succ k ih =>
    rw [List.replicate_succ]
    have : List.replicate (k + 1) '0' = List.replicate k '0' ++ ['0'] := by
      rw [← List.replicate_succ']
    rw [← List.replicate_succ, this, digitsVal_append, ih]
    rfl

theorem digitsVal_leading_zeros (z : Nat) (l : List Char) :
    digitsVal (List.replicate z '0' ++ l) = digitsVal l := by
  rw [digitsVal_append, digitsVal_replicate_zero]
  simp

/-- Trailing-zero trimming splits the list into the trimmed part and a run of
`'0'`s. -/
theorem trim_split (l : List Char) :
    ∃ z, l = trimTrailingZeros l ++ List.replicate z '0' := by
  refine ⟨(l.reverse.takeWhile (· = '0')).length, ?_⟩
  conv_lhs => rw [← List.reverse_reverse l,
    ← List.takeWhile_append_dropWhile (p := (· = '0')) (l := l.reverse)]
  rw [List.reverse_append, trimTrailingZeros]
  congr 1
  have hall : ∀ c ∈ l.reverse.takeWhile (· = '0'), c = '0' := by
    intro c hc
    have := List.mem_takeWhile_imp hc
    simpa using this
  rw [List.eq_replicate_of_mem hall]
  rw [List.reverse_replicate, List.length_replicate]

theorem mem_trim (l : List Char) (c : Char) (h : c ∈ trimTrailingZeros l) :
    c ∈ l := by
  rw [trimTrailingZeros, List.mem_reverse] at h
  have := (List.dropWhile_sublist (p := (· = '0')) (l := l.reverse)).mem h
  rwa [List.mem_reverse] at this

theorem digitsVal_natToChars (n : Nat) : digitsVal (natToChars n) = n := by
  rw [natToChars, digitsVal_map _ (natDigits_lt n), ofDigitsBE_natDigits]

theorem natToChars_mem (n : Nat) (c : Char) (h : c ∈ natToChars n) :
    isDigitChar c = true ∧ c ≠ '.' := by
  rcases List.mem_map.mp h with ⟨d, hd, rfl⟩
  exact ⟨digitChar_isDigit (natDigits_lt n d hd),
    digitChar_ne_dot (natDigits_lt n d hd)⟩

theorem natToChars_length_le (n k : Nat) (hk : 0 < k) (h : n < 10 ^ k) :
    (natToChars n).length ≤ k := by
  rw [natToChars, List.length_map, natDigits]
  by_cases hz : n = 0
  · simp [hz]; omega
  · simp only [hz, if_neg, not_false_iff, toDigitsBE, List.length_reverse]
    exact toDigitsLE_length_le 10 n k (by omega) h

/-- C10: for every non-negative amount and positive number of decimals,
`formatTokenAmount` is the exact decimal representation of
`amount / 10^decimals`: when the amount is divisible by `10^decimals` the
result is the whole quotient alone, and in every case interpreting the
result back as a rational number yields exactly `amount / 10^decimals`. -/
theorem formatTokenAmount_exact (amount decimals : Nat) (hdec : 0 < decimals) :
    (amount % 10 ^ decimals = 0 →
      formatTokenAmount amount decimals =
        natToString (amount / 10 ^ decimals)) ∧
    decodeDecimal (formatTokenAmount amount decimals) =
      some ((amount : ℚ) / (10 : ℚ) ^ decimals) := by
  have hD : 0 < 10 ^ decimals := Nat.pos_pow_of_pos decimals (by omega)
  constructor
  · intro h0
    rw [formatTokenAmount]
    simp only [h0, if_pos]
  · by_cases hfrac : amount % 10 ^ decimals = 0
    · -- divisible case: a bare whole number
      rw [formatTokenAmount]
      simp only [hfrac, if_pos]
      rw [decodeDecimal]
      have htake :
          (natToString (amount / 10 ^ decimals)).toList.takeWhile
              (fun c => c ≠ '.') =
            natToChars (amount / 10 ^ decimals) ∧
          (natToString (amount / 10 ^ decimals)).toList.dropWhile
              (fun c => c ≠ '.') = [] := by
        have hall : ∀ c ∈ natToChars (amount / 10 ^ decimals),
            (fun c => (c ≠ '.' : Bool)) c = true := by
          intro c hc
          simpa using (natToChars_mem _ c hc).2
        constructor
        · exact List.takeWhile_eq_self_iff.mpr hall
        · exact List.dropWhile_eq_nil_iff.mpr hall
      rw [natToString] at htake ⊢
      simp only [String.toList] at htake ⊢
      rw [htake.1, htake.2]
      rw [parseDigits_natToChars]
      simp only [Option.map_some]
      have hdvd : (10 : ℚ) ^ decimals ∣ (amount : ℚ) := by
        have : (10 : ℕ) ^ decimals ∣ amount := Nat.dvd_of_mod_eq_zero hfrac
        exact_mod_cast Nat.cast_dvd_cast (α := ℚ) this
      have := Nat.div_mul_cancel (Nat.dvd_of_mod_eq_zero hfrac)
      have hcast : ((amount / 10 ^ decimals : ℕ) : ℚ) * (10 : ℚ) ^ decimals =
          (amount : ℚ) := by
        exact_mod_cast congrArg (Nat.cast (R := ℚ)) this
      field_simp at hcast ⊢
      linarith [hcast]
    · -- fractional case
      rw [formatTokenAmount]
      simp only [hfrac, if_neg, not_false_iff]
      set D := 10 ^ decimals with hDdef
      set whole := amount / D with hwdef
      set fraction := amount % D with hfdef
      set padded := padStart (natToChars fraction) decimals '0' with hpdef
      set trimmed := trimTrailingZeros padded with htdef
      have hfl : fraction < D := Nat.mod_lt amount hD
      have hflen : (natToChars fraction).length ≤ decimals :=
        natToChars_length_le fraction decimals hdec hfl
      have hpadlen : padded.length = decimals := by
        rw [hpdef, padStart, List.length_append, List.length_replicate]
        omega
      have hpadval : digitsVal padded = fraction := by
        rw [hpdef, padStart, digitsVal_leading_zeros, digitsVal_natToChars]
      obtain ⟨z, hz⟩ := trim_split padded
      rw [← htdef] at hz
      have hval : digitsVal trimmed * 10 ^ z = fraction := by
        rw [← hpadval, hz, digitsVal_append, digitsVal_replicate_zero,
          List.length_replicate]
        omega
      have hlen : trimmed.length + z = decimals := by
        rw [← hpadlen, hz, List.length_append, List.length_replicate]
      have htne : trimmed ≠ [] := by
        intro hnil
        rw [hnil] at hval
        simp [digitsVal] at hval
        rw [← hval] at hfrac
        simp [ofDigitsBE] at hfrac
      have hmem : ∀ c ∈ trimmed, isDigitChar c = true := by
        intro c hc
        have hcp : c ∈ padded := mem_trim padded c (htdef ▸ hc)
        rw [hpdef, padStart] at hcp
        rcases List.mem_append.mp hcp with hcp | hcp
        · have := List.eq_of_mem_replicate hcp
          subst this; decide
        · exact (natToChars_mem _ c hcp).1
      rw [decodeDecimal]
      have hsplit := takeWhile_append_not (fun c => (c ≠ '.' : Bool))
        (natToChars whole) trimmed '.'
        (fun a ha => by simpa using (natToChars_mem _ a ha).2)
        (by decide)
      simp only [String.toList]
      rw [hsplit.1, hsplit.2]
      rw [if_neg (by simp : ¬('.' :: trimmed = ([] : List Char)))]
      have hpt : parseDigits trimmed = some (digitsVal trimmed) := by
        rw [parseDigits, if_pos ⟨htne, List.all_eq_true.mpr hmem⟩]
      simp only [List.tail_cons, parseDigits_natToChars, hpt]
      congr 1
      -- arithmetic: whole + dv / 10^lt = amount / 10^decimals
      have hdm : D * whole + fraction = amount := Nat.div_add_mod amount D
      have hcast : (D : ℚ) * (whole : ℚ) + (fraction : ℚ) = (amount : ℚ) := by
        exact_mod_cast congrArg (Nat.cast (R := ℚ)) hdm
      have hvq : (digitsVal trimmed : ℚ) * (10 : ℚ) ^ z = (fraction : ℚ) := by
        exact_mod_cast congrArg (Nat.cast (R := ℚ)) hval
      have hDq : (D : ℚ) = (10 : ℚ) ^ decimals := by
        rw [hDdef]; push_cast; ring
      have hpow : (10 : ℚ) ^ decimals =
          (10 : ℚ) ^ trimmed.length * (10 : ℚ) ^ z := by
        rw [← pow_add, hlen]
      have h10 : ((10 : ℚ) ^ trimmed.length) ≠ 0 := by positivity
      have h10z : ((10 : ℚ) ^ z) ≠ 0 := by positivity
      have hamount : (amount : ℚ) =
          (10 : ℚ) ^ trimmed.length * (10 : ℚ) ^ z * (whole : ℚ) +
            (digitsVal trimmed : ℚ) * (10 : ℚ) ^ z := by
        rw [← hcast, hDq, hpow, ← hvq]
      field_simp
      rw [hpow, hamount]
      ring

/-- C10 witness. -/
theorem formatTokenAmount_exact_witness :
    0 < 3 ∧
    ((1234500 % 10 ^ 3 = 0 →
        formatTokenAmount 1234500 3 = natToString (1234500 / 10 ^ 3)) ∧
      decodeDecimal (formatTokenAmount 1234500 3) =
        some ((1234500 : ℚ) / (10 : ℚ) ^ 3)) :=
  ⟨by decide, formatTokenAmount_exact 1234500 3 (by decide)⟩

/-! ## Base-58 (the `bs58` package used by `WalletService`) -/

/-- The Bitcoin base-58 alphabet used by the `bs58` package. -/
def b58Alphabet : List Char :=
  ['1', '2', '3', '4', '5', '6', '7', '8', '9',
   'A', 'B', 'C', 'D', 'E', 'F', 'G', 'H', 'J', 'K', 'L', 'M', 'N',
   'P', 'Q', 'R', 'S', 'T', 'U', 'V', 'W', 'X', 'Y', 'Z',
   'a', 'b', 'c', 'd', 'e', 'f', 'g', 'h', 'i', 'j', 'k', 'm', 'n',
   'o', 'p', 'q', 'r', 's', 't', 'u', 'v', 'w', 'x', 'y', 'z']

/-- Character encoding a base-58 digit. -/
def b58Char (d : Nat) : Char := b58Alphabet.getD d ' '

/-- Value of a base-58 character, `none` for characters outside the
alphabet. -/
def b58Val (c : Char) : Option Nat := b58Alphabet.indexOf? c

/-- The bs58 `encode`: leading zero bytes become `'1'`s; the remaining bytes,
read as a big-endian base-256 number, are written in base 58. -/
def base58Encode (bytes : List Nat) : List Char :=
  let zeros := (bytes.takeWhile (· = 0)).length
  let n := ofDigitsBE 256 bytes
  List.replicate zeros '1' ++ (toDigitsBE 58 n).map b58Char

/-- Translate every character to its base-58 value, failing on the first
character outside the alphabet (bs58's per-character decode loop). -/
def b58Vals : List Char → Option (List Nat)
  | [] => some []
  | c :: cs => do
      let v ← b58Val c
      let vs ← b58Vals cs
      pure (v :: vs)

/-- The bs58 `decode`: count leading `'1'`s, read the whole string as a
big-endian base-58 number, emit that many zero bytes followed by the
number's base-256 digits.  Fails on characters outside the alphabet. -/
def base58Decode (chars : List Char) : Option (List Nat) := do
  let vals ← b58Vals chars
  let zeros := (chars.takeWhile (· = '1')).length
  let n := ofDigitsBE 58 vals
  pure (List.replicate zeros 0 ++ toDigitsBE 256 n)

theorem b58Val_b58Char {d : Nat} (h : d < 58) : b58Val (b58Char d) = some d := by
  interval_cases d <;> decide

theorem b58Char_ne_one {d : Nat} (h : 0 < d) (h58 : d < 58) :
    b58Char d ≠ '1' := by
  interval_cases d <;> decide

theorem b58Char_ne_bracket {d : Nat} (h58 : d < 58) :
    b58Char d ≠ '[' := by
  interval_cases d <;> decide

/-- Leading zero bytes of a big-endian digit list contribute nothing to its
value. -/
theorem ofDigitsBE_leading_zeros (b z : Nat) (l : List Nat) :
    ofDigitsBE b (List.replicate z 0 ++ l) = ofDigitsBE b l := by
  induction z with
  | zero => simp
  | succ k ih =>
    rw [List.replicate_succ, List.cons_append, ofDigitsBE, List.foldl]
    simpa [ofDigitsBE] using ih

/-- Splitting off the run of leading zero bytes. -/
theorem takeWhile_zero_split (bytes : List Nat) :
    bytes = List.replicate (bytes.takeWhile (· = 0)).length 0 ++
      bytes.dropWhile (· = 0) := by
  have hall : ∀ d ∈ bytes.takeWhile (· = 0), d = 0 := by
    intro d hd
    have := List.mem_takeWhile_imp hd
    simpa using this
  have h1 := List.eq_replicate_of_mem hall
  conv_lhs => rw [← List.takeWhile_append_dropWhile (p := (· = 0)) (l := bytes)]
  rw [h1]
  simp

/-- The head of the dropWhile part is nonzero. -/
theorem dropWhile_zero_head (bytes : List Nat) :
    (bytes.dropWhile (· = 0)).head? ≠ some 0 := by
  intro h
  have hh := List.head?_dropWhile_not (p := fun d => (d = 0 : Bool)) (l := bytes)
  rw [h] at hh
  simp at hh

theorem b58Vals_append (l1 l2 : List Char) (r1 r2 : List Nat)
    (h1 : b58Vals l1 = some r1) (h2 : b58Vals l2 = some r2) :
    b58Vals (l1 ++ l2) = some (r1 ++ r2) := by
  induction l1 generalizing r1 with
  | nil =>
    simp [b58Vals] at h1
    subst h1
    simpa using h2
  | cons c cs ih =>
    rw [List.cons_append, b58Vals]
    rw [b58Vals] at h1
    cases hv : b58Val c with
    | none => rw [hv] at h1; simp at h1
    | some v =>
      rw [hv] at h1
      simp only [Option.bind_eq_bind, Option.some_bind] at h1 ⊢
      cases hvs : b58Vals cs with
      | none => rw [hvs] at h1; simp at h1
      | some vs =>
        rw [hvs] at h1
        simp at h1
        rw [ih vs hvs]
        simp [← h1]

theorem b58Vals_replicate_one (z : Nat) :
    b58Vals (List.replicate z '1') = some (List.replicate z 0) := by
  induction z with
  | zero => rfl
  | succ k ih =>
    rw [List.replicate_succ, List.replicate_succ, b58Vals]
    have h1 : b58Val '1' = some 0 := by decide
    rw [h1]
    simp [ih]

theorem b58Vals_map (l : List Nat) (h : ∀ d ∈ l, d < 58) :
    b58Vals (l.map b58Char) = some l := by
  induction l with
  | nil => rfl
  | cons d ds ih =>
    rw [List.map_cons, b58Vals,
      b58Val_b58Char (h d (List.mem_cons_self d ds))]
    simp [ih (fun x hx => h x (List.mem_cons_of_mem d hx))]

theorem takeWhile_replicate_append (p : Char → Bool) (a : Char) (z : Nat)
    (l : List Char) (hpa : p a = true)
    (hl : ∀ c, l.head? = some c → p c = false) :
    ((List.replicate z a ++ l).takeWhile p).length = z := by
  induction z with
  | zero =>
    simp only [List.replicate_zero, List.nil_append]
    cases l with
    | nil => simp
    | cons c cs =>
      have := hl c rfl
      simp [List.takeWhile, this]
  | succ k ih =>
    rw [List.replicate_succ, List.cons_append, List.takeWhile_cons, hpa]
    simp [ih]

/-- Decoding inverts encoding: `base58Decode` recovers the bytes from `base58Encode`. -/
theorem base58Decode_base58Encode (bytes : List Nat)
    (h : ∀ x ∈ bytes, x < 256) :
    base58Decode (base58Encode bytes) = some bytes := by
  rw [base58Encode, base58Decode]
  set zeros := (bytes.takeWhile (· = 0)).length with hzdef
  set n := ofDigitsBE 256 bytes with hndef
  set digits := toDigitsBE 58 n with hddef
  have hdlt : ∀ d ∈ digits, d < 58 := toDigitsBE_lt 58 n (by omega)
  have hvals : b58Vals (List.replicate zeros '1' ++ digits.map b58Char) =
      some (List.replicate zeros 0 ++ digits) :=
    b58Vals_append _ _ _ _ (b58Vals_replicate_one zeros) (b58Vals_map digits hdlt)
  rw [hvals]
  have hones : ((List.replicate zeros '1' ++
      digits.map b58Char).takeWhile (· = '1')).length = zeros := by
    apply takeWhile_replicate_append _ _ _ _ (by decide)
    intro c hc
    rw [List.head?_map] at hc
    cases hh : digits.head? with
    | none => rw [hh] at hc; simp at hc
    | some d =>
      rw [hh] at hc
      simp at hc
      have hdmem : d ∈ digits := List.mem_of_mem_head? (by rw [hh]; rfl)
      have hd0 : d ≠ 0 := by
        have hhd := toDigitsBE_head? 58 n (by omega)
        rw [← hddef, hh] at hhd
        intro hdz
        exact hhd (by rw [hdz])
      have hdlt' : d < 58 := hdlt d hdmem
      rw [← hc]
      exact decide_eq_false (b58Char_ne_one (Nat.pos_of_ne_zero hd0) hdlt')
  simp only [Option.bind_eq_bind, Option.some_bind, Option.some_inj, hones]
  have hnval : ofDigitsBE 58 (List.replicate zeros 0 ++ digits) = n := by
    rw [ofDigitsBE_leading_zeros, hddef, ofDigitsBE_toDigitsBE 58 n (by omega)]
  rw [hnval]
  have hsplit := takeWhile_zero_split bytes
  have hrest : toDigitsBE 256 n = bytes.dropWhile (· = 0) := by
    rw [hndef]
    conv_lhs => rw [hsplit]
    rw [ofDigitsBE_leading_zeros]
    apply toDigitsBE_ofDigitsBE 256 (by omega)
    · intro d hd
      exact h d ((List.dropWhile_sublist (p := (· = 0)) (l := bytes)).mem hd)
    · exact dropWhile_zero_head bytes
  rw [hrest, hzdef, ← hsplit]
  rfl

/-! ## `WalletService.getMasterKeypair` (src/src/services/WalletService.ts,
lines 34–69)

```ts
if (config.masterWalletSecret.startsWith('[') &&
    config.masterWalletSecret.endsWith(']')) {
  const secretArray = JSON.parse(config.masterWalletSecret);
  secretKey = new Uint8Array(secretArray);
} else {
  secretKey = bs58.decode(config.masterWalletSecret);
}
const keypair = Keypair.fromSecretKey(secretKey);
```
-/

/-- A Solana `Keypair`: its 64-byte secret key is the 32-byte seed followed
by the 32-byte public key.  The ed25519 consistency check performed by
`Keypair.fromSecretKey` depends only on the byte string, so identical byte
strings yield identical keypairs; it is not modelled further. -/
structure Keypair where
  secretKey : List Nat
deriving Repr, DecidableEq

/-- The derived public identity: the last 32 bytes of the secret key. -/
def Keypair.publicKey (k : Keypair) : List Nat := k.secretKey.drop 32

/-- Solana `Keypair.fromSecretKey`: requires exactly 64 bytes. -/
def keypairFromSecretKey (bytes : List Nat) : Option Keypair :=
  if bytes.length = 64 then some ⟨bytes⟩ else none

/-- Parse a comma-separated sequence of decimal numbers (the body of a JSON
numeric array as consumed by `JSON.parse` on the secret). -/
def parseNatsList : List (List Char) → Option (List Nat)
  | [] => some []
  | x :: xs =>
      match parseDigits x, parseNatsList xs with
      | some n, some ns => some (n :: ns)
      | _, _ => none

def parseNatList (l : List Char) : Option (List Nat) :=
  parseNatsList (l.splitOn ',')

/-- The JSON numeric-array rendering of a byte list: `[b0,b1,...]`. -/
def jsonNumArrayChars (bytes : List Nat) : List Char :=
  '[' :: [','].intercalate (bytes.map natToChars) ++ [']']

/-- The source's `WalletService.getMasterKeypair`: a configured secret presented either as
a JSON numeric array (detected by bracket delimiters, tried first) or as a
base-58 string (the fallback); `Uint8Array` wraps array entries modulo 256. -/
def getMasterKeypair (secret : List Char) : Option Keypair :=
  if secret.head? = some '[' ∧ secret.getLast? = some ']' then
    match parseNatList (secret.drop 1).dropLast with
    | some arr => keypairFromSecretKey (arr.map (· % 256))
    | none => none
  else
    match base58Decode secret with
    | some bytes => keypairFromSecretKey bytes
    | none => none

theorem isDigitChar_ne_comma {c : Char} (h : isDigitChar c = true) :
    c ≠ ',' := by
  intro hc
  subst hc
  simp [isDigitChar] at h

theorem parseNatsList_map (bytes : List Nat) :
    parseNatsList (bytes.map natToChars) = some bytes := by
  induction bytes with
  | nil => rfl
  | cons x xs ih =>
    rw [List.map_cons, parseNatsList, parseDigits_natToChars, ih]

theorem parseNatList_intercalate (bytes : List Nat) (hne : bytes ≠ []) :
    parseNatList ([','].intercalate (bytes.map natToChars)) = some bytes := by
  rw [parseNatList]
  rw [List.splitOn_intercalate (bytes.map natToChars) ','
    (fun l hl hc => by
      rcases List.mem_map.mp hl with ⟨b, _hb, rfl⟩
      exact isDigitChar_ne_comma (natToChars_mem b ',' hc).1 rfl)
    (by simpa using hne)]
  exact parseNatsList_map bytes

theorem base58Encode_mem_ne_bracket (bytes : List Nat) (c : Char)
    (hc : c ∈ base58Encode bytes) : c ≠ '[' := by
  rw [base58Encode] at hc
  rcases List.mem_append.mp hc with hc | hc
  · have := List.eq_of_mem_replicate hc
    subst this; decide
  · rcases List.mem_map.mp hc with ⟨d, hd, rfl⟩
    exact b58Char_ne_bracket (toDigitsBE_lt 58 _ (by omega) d hd)

/-- C5: a valid 64-byte secret presented in base-58 form and in JSON
numeric-array form decodes, through `getMasterKeypair`, to the same keypair
and hence to identical derived public identities; the array form is
recognised by its bracket delimiters and the base-58 form falls through to
the bs58 decoder. -/
theorem getMasterKeypair_formats_agree (s : List Nat)
    (hlen : s.length = 64) (hbytes : ∀ x ∈ s, x < 256) :
    getMasterKeypair (jsonNumArrayChars s) = some ⟨s⟩ ∧
    getMasterKeypair (base58Encode s) = some ⟨s⟩ ∧
    (getMasterKeypair (jsonNumArrayChars s)).map Keypair.publicKey =
      (getMasterKeypair (base58Encode s)).map Keypair.publicKey := by
  have hne : s ≠ [] := by intro h; rw [h] at hlen; simp at hlen
  have hjson : getMasterKeypair (jsonNumArrayChars s) = some ⟨s⟩ := by
    rw [getMasterKeypair, jsonNumArrayChars]
    have hhead : ('[' :: [','].intercalate (s.map natToChars) ++ [']']).head? =
        some '[' := rfl
    have hlast : ('[' :: [','].intercalate (s.map natToChars) ++ [']']).getLast? =
        some ']' := by
      rw [List.getLast?_concat]
    rw [if_pos ⟨hhead, hlast⟩]
    have hdrop : (('[' :: [','].intercalate (s.map natToChars) ++ [']']).drop
        1).dropLast = [','].intercalate (s.map natToChars) := by
      rw [List.cons_append, List.drop_one, List.tail_cons,
        List.dropLast_concat]
    rw [hdrop, parseNatList_intercalate s hne]
    have hmod : s.map (· % 256) = s := by
      have : s.map (· % 256) = s.map id :=
        List.map_congr_left (fun x hx => Nat.mod_eq_of_lt (hbytes x hx))
      rw [this, List.map_id]
    show keypairFromSecretKey (s.map (· % 256)) = some ⟨s⟩
    rw [hmod, keypairFromSecretKey, if_pos hlen]
  have hb58 : getMasterKeypair (base58Encode s) = some ⟨s⟩ := by
    rw [getMasterKeypair]
    have hnotbr : ¬((base58Encode s).head? = some '[' ∧
        (base58Encode s).getLast? = some ']') := by
      rintro ⟨hh, _⟩
      have : '[' ∈ base58Encode s := List.mem_of_mem_head? (by rw [hh]; rfl)
      exact base58Encode_mem_ne_bracket s '[' this rfl
    rw [if_neg hnotbr, base58Decode_base58Encode s hbytes]
    show keypairFromSecretKey s = some ⟨s⟩
    rw [keypairFromSecretKey, if_pos hlen]
  exact ⟨hjson, hb58, by rw [hjson, hb58]⟩

/-- C5 witness. -/
theorem getMasterKeypair_formats_agree_witness :
    (List.range 64).length = 64 ∧ (∀ x ∈ List.range 64, x < 256) ∧
    (getMasterKeypair (jsonNumArrayChars (List.range 64)) =
        some ⟨List.range 64⟩ ∧
      getMasterKeypair (base58Encode (List.range 64)) =
        some ⟨List.range 64⟩ ∧
      (getMasterKeypair (jsonNumArrayChars (List.range 64))).map
          Keypair.publicKey =
        (getMasterKeypair (base58Encode (List.range 64))).map
          Keypair.publicKey) :=
  ⟨by decide, by decide,
    getMasterKeypair_formats_agree (List.range 64) (by decide) (by decide)⟩

/-! ## UTF-8 and percent-encoding (for `encodeURIComponent` in
`IpfsService.createDataUri`) -/

/-- UTF-8 encoding of a Unicode code point. -/
def utf8Encode (n : Nat) : List Nat :=
  if n < 0x80 then [n]
  else if n < 0x800 then [0xC0 + n / 64, 0x80 + n % 64]
  else if n < 0x10000 then
    [0xE0 + n / 4096, 0x80 + (n / 64) % 64, 0x80 + n % 64]
  else
    [0xF0 + n / 262144, 0x80 + (n / 4096) % 64, 0x80 + (n / 64) % 64,
     0x80 + n % 64]

theorem utf8Encode_lt (n : Nat) (h : n < 0x110000) :
    ∀ x ∈ utf8Encode n, x < 256 := by
  intro x hx
  rw [utf8Encode] at hx
  split_ifs at hx <;> simp at hx <;> omega

/-- Strict UTF-8 decoder (rejects overlong forms, surrogates, and values
above `0x10FFFF`).  The fuel argument bounds the number of decoded
characters; `utf8Decode` supplies the byte count, which always suffices. -/
def utf8DecodeAux : Nat → List Nat → Option (List Char)
  | _, [] => some []
  | 0, _ :: _ => none
  | fuel + 1, b0 :: rest =>
    if b0 < 0x80 then (utf8DecodeAux fuel rest).map (Char.ofNat b0 :: ·)
    else if b0 < 0xC2 then none
    else if b0 < 0xE0 then
      match rest with
      | b1 :: rest1 =>
          if 0x80 ≤ b1 ∧ b1 < 0xC0 then
            (utf8DecodeAux fuel rest1).map
              (Char.ofNat ((b0 - 0xC0) * 64 + (b1 - 0x80)) :: ·)
          else none
      | [] => none
    else if b0 < 0xF0 then
      match rest with
      | b1 :: b2 :: rest2 =>
          if (0x80 ≤ b1 ∧ b1 < 0xC0) ∧ (0x80 ≤ b2 ∧ b2 < 0xC0) then
            let n := (b0 - 0xE0) * 4096 + (b1 - 0x80) * 64 + (b2 - 0x80)
            if 0x800 ≤ n ∧ ¬(0xD800 ≤ n ∧ n < 0xE000) then
              (utf8DecodeAux fuel rest2).map (Char.ofNat n :: ·)
            else none
          else none
      | _ => none
    else if b0 < 0xF5 then
      match rest with
      | b1 :: b2 :: b3 :: rest3 =>
          if (0x80 ≤ b1 ∧ b1 < 0xC0) ∧ (0x80 ≤ b2 ∧ b2 < 0xC0) ∧
              (0x80 ≤ b3 ∧ b3 < 0xC0) then
            let n := (b0 - 0xF0) * 262144 + (b1 - 0x80) * 4096 +
              (b2 - 0x80) * 64 + (b3 - 0x80)
            if 0x10000 ≤ n ∧ n < 0x110000 then
              (utf8DecodeAux fuel rest3).map (Char.ofNat n :: ·)
            else none
          else none
      | _ => none
    else none

def utf8Decode (l : List Nat) : Option (List Char) :=
  utf8DecodeAux l.length l

/-- UTF-8 encoding of a whole string. -/
def utf8EncodeAll (s : List Char) : List Nat :=
  s.flatMap (fun c => utf8Encode c.toNat)

theorem char_toNat_lt (c : Char) : c.toNat < 0x110000 := by
  have h := c.valid
  rw [Char.toNat]
  rcases h with h | h <;> omega

theorem char_toNat_not_surrogate (c : Char) :
    ¬(0xD800 ≤ c.toNat ∧ c.toNat < 0xE000) := by
  have h := c.valid
  rw [Char.toNat]
  rcases h with h | h <;> omega

/-- One-step unfolding of the decoder on a nonempty stream. -/
theorem utf8DecodeAux_succ_cons (fuel b0 : Nat) (rest : List Nat) :
    utf8DecodeAux (fuel + 1) (b0 :: rest) =
      (if b0 < 0x80 then (utf8DecodeAux fuel rest).map (Char.ofNat b0 :: ·)
      else if b0 < 0xC2 then none
      else if b0 < 0xE0 then
        match rest with
        | b1 :: rest1 =>
            if 0x80 ≤ b1 ∧ b1 < 0xC0 then
              (utf8DecodeAux fuel rest1).map
                (Char.ofNat ((b0 - 0xC0) * 64 + (b1 - 0x80)) :: ·)
            else none
        | [] => none
      else if b0 < 0xF0 then
        match rest with
        | b1 :: b2 :: rest2 =>
            if (0x80 ≤ b1 ∧ b1 < 0xC0) ∧ (0x80 ≤ b2 ∧ b2 < 0xC0) then
              let n := (b0 - 0xE0) * 4096 + (b1 - 0x80) * 64 + (b2 - 0x80)
              if 0x800 ≤ n ∧ ¬(0xD800 ≤ n ∧ n < 0xE000) then
                (utf8DecodeAux fuel rest2).map (Char.ofNat n :: ·)
              else none
            else none
        | _ => none
      else if b0 < 0xF5 then
        match rest with
        | b1 :: b2 :: b3 :: rest3 =>
            if (0x80 ≤ b1 ∧ b1 < 0xC0) ∧ (0x80 ≤ b2 ∧ b2 < 0xC0) ∧
                (0x80 ≤ b3 ∧ b3 < 0xC0) then
              let n := (b0 - 0xF0) * 262144 + (b1 - 0x80) * 4096 +
                (b2 - 0x80) * 64 + (b3 - 0x80)
              if 0x10000 ≤ n ∧ n < 0x110000 then
                (utf8DecodeAux fuel rest3).map (Char.ofNat n :: ·)
              else none
            else none
        | _ => none
      else none) := rfl

/-- Decoding one encoded character off the front of a byte stream. -/
theorem utf8DecodeAux_encode_cons (fuel : Nat) (c : Char) (rest : List Nat) :
    utf8DecodeAux (fuel + 1) (utf8Encode c.toNat ++ rest) =
      (utf8DecodeAux fuel rest).map (c :: ·) := by
  have hlt := char_toNat_lt c
  have hsur := char_toNat_not_surrogate c
  have hofnat : Char.ofNat c.toNat = c := Char.ofNat_toNat c
  rw [utf8Encode]
  by_cases h1 : c.toNat < 0x80
  · rw [if_pos h1, List.cons_append, List.nil_append,
      utf8DecodeAux_succ_cons, if_pos h1, hofnat]
  · rw [if_neg h1]
    by_cases h2 : c.toNat < 0x800
    · rw [if_pos h2, List.cons_append, List.cons_append, List.nil_append,
        utf8DecodeAux_succ_cons]
      have hm : c.toNat % 64 < 64 := Nat.mod_lt _ (by omega)
      have hb0a : ¬(0xC0 + c.toNat / 64 < 0x80) := by omega
      have hb0b : ¬(0xC0 + c.toNat / 64 < 0xC2) := by
        have : 2 ≤ c.toNat / 64 := by omega
        omega
      have hb0c : 0xC0 + c.toNat / 64 < 0xE0 := by
        have : c.toNat / 64 < 32 := by omega
        omega
      rw [if_neg hb0a, if_neg hb0b, if_pos hb0c]
      have hb1 : 0x80 ≤ 0x80 + c.toNat % 64 ∧ 0x80 + c.toNat % 64 < 0xC0 := by
        omega
      simp only [hb1, and_self, if_true]
      have hval : (0xC0 + c.toNat / 64 - 0xC0) * 64 + (0x80 + c.toNat % 64 - 0x80)
          = c.toNat := by
        have := Nat.div_add_mod c.toNat 64
        omega
      rw [hval, hofnat]
    · rw [if_neg h2]
      by_cases h3 : c.toNat < 0x10000
      · rw [if_pos h3, List.cons_append, List.cons_append, List.cons_append,
          List.nil_append, utf8DecodeAux_succ_cons]
        have hq : c.toNat / 4096 < 16 := by omega
        have hm1 : (c.toNat / 64) % 64 < 64 := Nat.mod_lt _ (by omega)
        have hm2 : c.toNat % 64 < 64 := Nat.mod_lt _ (by omega)
        have hb0a : ¬(0xE0 + c.toNat / 4096 < 0x80) := by omega
        have hb0b : ¬(0xE0 + c.toNat / 4096 < 0xC2) := by omega
        have hb0c : ¬(0xE0 + c.toNat / 4096 < 0xE0) := by omega
        have hb0d : 0xE0 + c.toNat / 4096 < 0xF0 := by omega
        rw [if_neg hb0a, if_neg hb0b, if_neg hb0c, if_pos hb0d]
        have hcond : (0x80 ≤ 0x80 + (c.toNat / 64) % 64 ∧
            0x80 + (c.toNat / 64) % 64 < 0xC0) ∧
            (0x80 ≤ 0x80 + c.toNat % 64 ∧ 0x80 + c.toNat % 64 < 0xC0) := by
          omega
        simp only [hcond, and_self, if_true]
        have hval : (0xE0 + c.toNat / 4096 - 0xE0) * 4096 +
            (0x80 + (c.toNat / 64) % 64 - 0x80) * 64 +
            (0x80 + c.toNat % 64 - 0x80) = c.toNat := by
          have e1 := Nat.div_add_mod c.toNat 64
          have e2 := Nat.div_add_mod (c.toNat / 64) 64
          have e3 : c.toNat / 64 / 64 = c.toNat / 4096 := by
            rw [Nat.div_div_eq_div_mul]
          omega
        rw [hval]
        have hrange : 0x800 ≤ c.toNat ∧ ¬(0xD800 ≤ c.toNat ∧ c.toNat < 0xE000) :=
          ⟨by omega, hsur⟩
        rw [if_pos hrange, hofnat]
      · rw [if_neg h3, List.cons_append, List.cons_append, List.cons_append,
          List.cons_append, List.nil_append, utf8DecodeAux_succ_cons]
        have hq : c.toNat / 262144 < 5 := by omega
        have hm1 : (c.toNat / 4096) % 64 < 64 := Nat.mod_lt _ (by omega)
        have hm2 : (c.toNat / 64) % 64 < 64 := Nat.mod_lt _ (by omega)
        have hm3 : c.toNat % 64 < 64 := Nat.mod_lt _ (by omega)
        have hb0a : ¬(0xF0 + c.toNat / 262144 < 0x80) := by omega
        have hb0b : ¬(0xF0 + c.toNat / 262144 < 0xC2) := by omega
        have hb0c : ¬(0xF0 + c.toNat / 262144 < 0xE0) := by omega
        have hb0d : ¬(0xF0 + c.toNat / 262144 < 0xF0) := by omega
        have hb0e : 0xF0 + c.toNat / 262144 < 0xF5 := by omega
        rw [if_neg hb0a, if_neg hb0b, if_neg hb0c, if_neg hb0d, if_pos hb0e]
        have hcond : (0x80 ≤ 0x80 + (c.toNat / 4096) % 64 ∧
            0x80 + (c.toNat / 4096) % 64 < 0xC0) ∧
            (0x80 ≤ 0x80 + (c.toNat / 64) % 64 ∧
              0x80 + (c.toNat / 64) % 64 < 0xC0) ∧
            (0x80 ≤ 0x80 + c.toNat % 64 ∧ 0x80 + c.toNat % 64 < 0xC0) := by
          omega
        simp only [hcond, and_self, if_true]
        have hval : (0xF0 + c.toNat / 262144 - 0xF0) * 262144 +
            (0x80 + (c.toNat / 4096) % 64 - 0x80) * 4096 +
            (0x80 + (c.toNat / 64) % 64 - 0x80) * 64 +
            (0x80 + c.toNat % 64 - 0x80) = c.toNat := by
          have e1 := Nat.div_add_mod c.toNat 64
          have e2 := Nat.div_add_mod (c.toNat / 64) 64
          have e3 := Nat.div_add_mod (c.toNat / 4096) 64
          have e4 : c.toNat / 64 / 64 = c.toNat / 4096 := by
            rw [Nat.div_div_eq_div_mul]
          have e5 : c.toNat / 4096 / 64 = c.toNat / 262144 := by
            rw [Nat.div_div_eq_div_mul]
          omega
        rw [hval]
        have hrange : 0x10000 ≤ c.toNat ∧ c.toNat < 0x110000 := ⟨by omega, hlt⟩
        rw [if_pos hrange, hofnat]

theorem utf8Encode_length_pos (n : Nat) : 0 < (utf8Encode n).length := by
  rw [utf8Encode]
  split_ifs <;> simp

theorem utf8EncodeAll_length (s : List Char) :
    s.length ≤ (utf8EncodeAll s).length := by
  induction s with
  | nil => simp [utf8EncodeAll]
  | cons c cs ih =>
    rw [utf8EncodeAll, List.flatMap_cons, ← utf8EncodeAll,
      List.length_append, List.length_cons]
    have := utf8Encode_length_pos c.toNat
    omega

theorem utf8DecodeAux_encodeAll (s : List Char) :
    ∀ fuel, s.length ≤ fuel → utf8DecodeAux fuel (utf8EncodeAll s) = some s := by
  induction s with
  | nil =>
    intro fuel _
    rw [utf8EncodeAll, List.flatMap_nil]
    cases fuel <;> rfl
  | cons c cs ih =>
    intro fuel hf
    cases fuel with
    | zero => simp at hf
    | succ f =>
      rw [utf8EncodeAll, List.flatMap_cons, ← utf8EncodeAll,
        utf8DecodeAux_encode_cons, ih f (by simp at hf; omega)]
      rfl

/-- The UTF-8 decoder inverts the encoder on whole strings. -/
theorem utf8Decode_utf8EncodeAll (s : List Char) :
    utf8Decode (utf8EncodeAll s) = some s :=
  utf8DecodeAux_encodeAll s (utf8EncodeAll s).length (utf8EncodeAll_length s)

/-- Characters `encodeURIComponent` leaves unescaped:
`A–Z a–z 0–9 - _ . ! ~ * ' ( )`. -/
def isUriUnreserved (c : Char) : Bool :=
  (65 ≤ c.toNat && c.toNat ≤ 90) || (97 ≤ c.toNat && c.toNat ≤ 122) ||
  (48 ≤ c.toNat && c.toNat ≤ 57) ||
  (c.toNat = 45 || c.toNat = 95 || c.toNat = 46 || c.toNat = 33 ||
   c.toNat = 126 || c.toNat = 42 || c.toNat = 39 || c.toNat = 40 ||
   c.toNat = 41)

/-- Upper-case hexadecimal digit, as `encodeURIComponent` emits. -/
def hexUpper (d : Nat) : Char :=
  if d < 10 then Char.ofNat (48 + d) else Char.ofNat (55 + d)

/-- A percent-escaped byte: `%XY`. -/
def percentByte (b : Nat) : List Char :=
  ['%', hexUpper (b / 16), hexUpper (b % 16)]

/-- JS `encodeURIComponent`: unreserved characters pass through, all others are
UTF-8 encoded and each byte percent-escaped. -/
def encodeURIComponent (s : List Char) : List Char :=
  s.flatMap fun c =>
    if isUriUnreserved c then [c]
    else (utf8Encode c.toNat).flatMap percentByte

/-- Value of a hexadecimal digit character (either case). -/
def hexVal (c : Char) : Option Nat :=
  if 48 ≤ c.toNat ∧ c.toNat ≤ 57 then some (c.toNat - 48)
  else if 65 ≤ c.toNat ∧ c.toNat ≤ 70 then some (c.toNat - 55)
  else if 97 ≤ c.toNat ∧ c.toNat ≤ 102 then some (c.toNat - 87)
  else none

/-- Inverse of percent-escaping: a `%`-sequence becomes the escaped byte, any
other character its own code.  The fuel bounds the number of decoded items;
`percentUnescape` supplies the character count, which always suffices. -/
def percentUnescapeAux : Nat → List Char → Option (List Nat)
  | _, [] => some []
  | 0, _ :: _ => none
  | fuel + 1, c :: rest =>
    if c = '%' then
      match rest with
      | h1 :: h2 :: rest2 =>
          match hexVal h1, hexVal h2 with
          | some v1, some v2 =>
              (percentUnescapeAux fuel rest2).map ((v1 * 16 + v2) :: ·)
          | _, _ => none
      | _ => none
    else (percentUnescapeAux fuel rest).map (c.toNat :: ·)

def percentUnescape (l : List Char) : Option (List Nat) :=
  percentUnescapeAux l.length l

theorem percentUnescapeAux_succ_cons (fuel : Nat) (c : Char)
    (rest : List Char) :
    percentUnescapeAux (fuel + 1) (c :: rest) =
      (if c = '%' then
        match rest with
        | h1 :: h2 :: rest2 =>
            match hexVal h1, hexVal h2 with
            | some v1, some v2 =>
                (percentUnescapeAux fuel rest2).map ((v1 * 16 + v2) :: ·)
            | _, _ => none
        | _ => none
      else (percentUnescapeAux fuel rest).map (c.toNat :: ·)) := rfl

theorem percentUnescapeAux_nil (fuel : Nat) :
    percentUnescapeAux fuel [] = some [] := by
  cases fuel <;> rfl

theorem hexVal_hexUpper {d : Nat} (h : d < 16) :
    hexVal (hexUpper d) = some d := by
  interval_cases d <;> decide

theorem isUriUnreserved_ascii {c : Char} (h : isUriUnreserved c = true) :
    c.toNat < 0x80 := by
  simp only [isUriUnreserved, Bool.or_eq_true, Bool.and_eq_true,
    decide_eq_true_eq] at h
  omega

theorem isUriUnreserved_ne_percent {c : Char} (h : isUriUnreserved c = true) :
    c ≠ '%' := by
  intro hc
  subst hc
  simp [isUriUnreserved] at h

theorem percentUnescapeAux_percentByte (fuel : Nat) (b : Nat) (hb : b < 256)
    (l : List Char) :
    percentUnescapeAux (fuel + 1) (percentByte b ++ l) =
      (percentUnescapeAux fuel l).map (b :: ·) := by
  rw [percentByte]
  rw [List.cons_append, List.cons_append, List.cons_append, List.nil_append,
    percentUnescapeAux_succ_cons, if_pos rfl]
  simp only [hexVal_hexUpper (by omega : b / 16 < 16),
    hexVal_hexUpper (Nat.mod_lt _ (by omega) : b % 16 < 16)]
  have : b / 16 * 16 + b % 16 = b := by
    have := Nat.div_add_mod b 16
    omega
  rw [this]

theorem percentUnescapeAux_bytes (bytes : List Nat) (hb : ∀ x ∈ bytes, x < 256)
    (l : List Char) :
    ∀ fuel, percentUnescapeAux (bytes.length + fuel)
        (bytes.flatMap percentByte ++ l) =
      (percentUnescapeAux fuel l).map (bytes ++ ·) := by
  induction bytes with
  | nil =>
    intro fuel
    simp only [List.flatMap_nil, List.nil_append, List.length_nil,
      Nat.zero_add]
    cases h : percentUnescapeAux fuel l <;> simp
  | cons b bs ih =>
    intro fuel
    have hlen : (b :: bs).length + fuel = (bs.length + fuel) + 1 := by
      simp [List.length_cons]
      omega
    rw [hlen, List.flatMap_cons, List.append_assoc,
      percentUnescapeAux_percentByte _ b (hb b (List.mem_cons_self b bs)),
      ih (fun x hx => hb x (List.mem_cons_of_mem b hx)) fuel]
    cases h : percentUnescapeAux fuel l <;> simp

theorem percentUnescapeAux_encode (s : List Char) (l : List Char) :
    ∀ fuel, percentUnescapeAux ((utf8EncodeAll s).length + fuel)
        (encodeURIComponent s ++ l) =
      (percentUnescapeAux fuel l).map (utf8EncodeAll s ++ ·) := by
  induction s with
  | nil =>
    intro fuel
    simp only [utf8EncodeAll, encodeURIComponent, List.flatMap_nil,
      List.nil_append, List.length_nil, Nat.zero_add]
    cases h : percentUnescapeAux fuel l <;> simp
  | cons c cs ih =>
    intro fuel
    rw [encodeURIComponent, List.flatMap_cons, ← encodeURIComponent,
      utf8EncodeAll, List.flatMap_cons, ← utf8EncodeAll]
    by_cases h : isUriUnreserved c
    · rw [if_pos h]
      have henc : utf8Encode c.toNat = [c.toNat] := by
        rw [utf8Encode, if_pos (isUriUnreserved_ascii h)]
      rw [henc]
      have hlen : ([c.toNat] ++ utf8EncodeAll cs).length + fuel =
          ((utf8EncodeAll cs).length + fuel) + 1 := by
        simp
        omega
      rw [hlen, List.cons_append, List.nil_append, List.cons_append]
      rw [percentUnescapeAux_succ_cons ((utf8EncodeAll cs).length + fuel) c
        (encodeURIComponent cs ++ l)]
      rw [if_neg (isUriUnreserved_ne_percent h), ih fuel]
      cases hr : percentUnescapeAux fuel l <;> simp
    · rw [if_neg h]
      have hlt := utf8Encode_lt c.toNat (char_toNat_lt c)
      have hlen : (utf8Encode c.toNat ++ utf8EncodeAll cs).length + fuel =
          (utf8Encode c.toNat).length + ((utf8EncodeAll cs).length + fuel) := by
        simp
        omega
      rw [hlen, List.append_assoc,
        percentUnescapeAux_bytes (utf8Encode c.toNat) hlt, ih fuel]
      cases hr : percentUnescapeAux fuel l <;> simp

theorem encodeURIComponent_length_split (s : List Char) :
    ∃ k, (encodeURIComponent s).length = (utf8EncodeAll s).length + k := by
  induction s with
  | nil => exact ⟨0, rfl⟩
  | cons c cs ih =>
    obtain ⟨k, hk⟩ := ih
    rw [encodeURIComponent, List.flatMap_cons, ← encodeURIComponent,
      utf8EncodeAll, List.flatMap_cons, ← utf8EncodeAll,
      List.length_append, List.length_append, hk]
    by_cases h : isUriUnreserved c
    · refine ⟨k, ?_⟩
      rw [if_pos h]
      have henc : utf8Encode c.toNat = [c.toNat] := by
        rw [utf8Encode, if_pos (isUriUnreserved_ascii h)]
      rw [henc]
      simp
      omega
    · rw [if_neg h]
      refine ⟨2 * (utf8Encode c.toNat).length + k, ?_⟩
      have hpb : ∀ b, (percentByte b).length = 3 := fun b => rfl
      have : ((utf8Encode c.toNat).flatMap percentByte).length =
          3 * (utf8Encode c.toNat).length := by
        induction utf8Encode c.toNat with
        | nil => rfl
        | cons b bs ihb =>
          rw [List.flatMap_cons, List.length_append, hpb, ihb,
            List.length_cons]
          ring
      rw [this]
      omega

/-- Percent-decoding the output of `encodeURIComponent` recovers the UTF-8
bytes of the input string. -/
theorem percentUnescape_encodeURIComponent (s : List Char) :
    percentUnescape (encodeURIComponent s) = some (utf8EncodeAll s) := by
  obtain ⟨k, hk⟩ := encodeURIComponent_length_split s
  rw [percentUnescape, hk]
  have := percentUnescapeAux_encode s [] k
  rw [List.append_nil] at this
  rw [this, percentUnescapeAux_nil]
  simp

/-! ## JSON string quoting (`JSON.stringify`) and a parser for it -/

def lbrace : Char := Char.ofNat 123

def rbrace : Char := Char.ofNat 125

/-- Lower-case hexadecimal digit, as `JSON.stringify` emits in `\u00XY`. -/
def hexLower (d : Nat) : Char :=
  if d < 10 then Char.ofNat (48 + d) else Char.ofNat (87 + d)

/-- Escape one character as `JSON.stringify` quotes string contents. -/
def jsonEscapeChar (c : Char) : List Char :=
  if c = '"' then ['\\', '"']
  else if c = '\\' then ['\\', '\\']
  else if c.toNat = 8 then ['\\', 'b']
  else if c.toNat = 9 then ['\\', 't']
  else if c.toNat = 10 then ['\\', 'n']
  else if c.toNat = 12 then ['\\', 'f']
  else if c.toNat = 13 then ['\\', 'r']
  else if c.toNat < 32 then
    ['\\', 'u', '0', '0', hexLower (c.toNat / 16), hexLower (c.toNat % 16)]
  else [c]

def jsonEscape (s : List Char) : List Char := s.flatMap jsonEscapeChar

/-- Parse a JSON string body up to and including its closing quote,
returning the unescaped contents and the remaining input.  The fuel bounds
the number of decoded characters. -/
def parseJsonStrAux : Nat → List Char → Option (List Char × List Char)
  | _, [] => none
  | 0, _ :: _ => none
  | fuel + 1, c :: rest =>
    if c = '"' then some ([], rest)
    else if c = '\\' then
      match rest with
      | [] => none
      | e :: rest1 =>
        if e = '"' then
          (parseJsonStrAux fuel rest1).map (fun p => ('"' :: p.1, p.2))
        else if e = '\\' then
          (parseJsonStrAux fuel rest1).map (fun p => ('\\' :: p.1, p.2))
        else if e = 'b' then
          (parseJsonStrAux fuel rest1).map (fun p => (Char.ofNat 8 :: p.1, p.2))
        else if e = 't' then
          (parseJsonStrAux fuel rest1).map (fun p => (Char.ofNat 9 :: p.1, p.2))
        else if e = 'n' then
          (parseJsonStrAux fuel rest1).map (fun p => (Char.ofNat 10 :: p.1, p.2))
        else if e = 'f' then
          (parseJsonStrAux fuel rest1).map (fun p => (Char.ofNat 12 :: p.1, p.2))
        else if e = 'r' then
          (parseJsonStrAux fuel rest1).map (fun p => (Char.ofNat 13 :: p.1, p.2))
        else if e = 'u' then
          match rest1 with
          | h1 :: h2 :: h3 :: h4 :: rest2 =>
            match hexVal h1, hexVal h2, hexVal h3, hexVal h4 with
            | some v1, some v2, some v3, some v4 =>
                let n := v1 * 4096 + v2 * 256 + v3 * 16 + v4
                if ¬(0xD800 ≤ n ∧ n < 0xE000) then
                  (parseJsonStrAux fuel rest2).map
                    (fun p => (Char.ofNat n :: p.1, p.2))
                else none
            | _, _, _, _ => none
          | _ => none
        else none
    else (parseJsonStrAux fuel rest).map (fun p => (c :: p.1, p.2))

def parseJsonStr (l : List Char) : Option (List Char × List Char) :=
  parseJsonStrAux l.length l

theorem parseJsonStrAux_succ_cons (fuel : Nat) (c : Char) (rest : List Char) :
    parseJsonStrAux (fuel + 1) (c :: rest) =
      (if c = '"' then some ([], rest)
      else if c = '\\' then
        match rest with
        | [] => none
        | e :: rest1 =>
          if e = '"' then
            (parseJsonStrAux fuel rest1).map (fun p => ('"' :: p.1, p.2))
          else if e = '\\' then
            (parseJsonStrAux fuel rest1).map (fun p => ('\\' :: p.1, p.2))
          else if e = 'b' then
            (parseJsonStrAux fuel rest1).map (fun p => (Char.ofNat 8 :: p.1, p.2))
          else if e = 't' then
            (parseJsonStrAux fuel rest1).map (fun p => (Char.ofNat 9 :: p.1, p.2))
          else if e = 'n' then
            (parseJsonStrAux fuel rest1).map (fun p => (Char.ofNat 10 :: p.1, p.2))
          else if e = 'f' then
            (parseJsonStrAux fuel rest1).map (fun p => (Char.ofNat 12 :: p.1, p.2))
          else if e = 'r' then
            (parseJsonStrAux fuel rest1).map (fun p => (Char.ofNat 13 :: p.1, p.2))
          else if e = 'u' then
            match rest1 with
            | h1 :: h2 :: h3 :: h4 :: rest2 =>
              match hexVal h1, hexVal h2, hexVal h3, hexVal h4 with
              | some v1, some v2, some v3, some v4 =>
                  let n := v1 * 4096 + v2 * 256 + v3 * 16 + v4
                  if ¬(0xD800 ≤ n ∧ n < 0xE000) then
                    (parseJsonStrAux fuel rest2).map
                      (fun p => (Char.ofNat n :: p.1, p.2))
                  else none
              | _, _, _, _ => none
            | _ => none
          else none
      else (parseJsonStrAux fuel rest).map (fun p => (c :: p.1, p.2))) := rfl

theorem hexVal_hexLower {d : Nat} (h : d < 16) :
    hexVal (hexLower d) = some d := by
  interval_cases d <;> decide

theorem char_eq_ofNat {c : Char} {n : Nat} (h : c.toNat = n) :
    c = Char.ofNat n := by
  rw [← Char.ofNat_toNat c, h]

/-- Unescaping inverts escaping: parsing the escaped body followed by the
closing quote yields the original string and the remaining input. -/
theorem parseJsonStrAux_escape (s : List Char) (rest : List Char) :
    ∀ fuel, parseJsonStrAux (s.length + (fuel + 1))
        (jsonEscape s ++ '"' :: rest) = some (s, rest) := by
  induction s with
  | nil =>
    intro fuel
    rw [jsonEscape, List.flatMap_nil, List.nil_append]
    simp only [List.length_nil, Nat.zero_add]
    rw [parseJsonStrAux_succ_cons, if_pos rfl]
  | cons c cs ih =>
    intro fuel
    rw [jsonEscape, List.flatMap_cons, ← jsonEscape, List.append_assoc]
    have hlen : (c :: cs).length + (fuel + 1) = (cs.length + (fuel + 1)) + 1 := by
      simp only [List.length_cons]
      omega
    rw [hlen, jsonEscapeChar]
    by_cases h1 : c = '"'
    · subst h1
      rw [if_pos rfl, List.cons_append, List.cons_append, List.nil_append,
        parseJsonStrAux_succ_cons]
      simp [ih fuel]
    · rw [if_neg h1]
      by_cases h2 : c = '\\'
      · subst h2
        rw [if_pos rfl, List.cons_append, List.cons_append, List.nil_append,
          parseJsonStrAux_succ_cons]
        simp [ih fuel]
      · rw [if_neg h2]
        by_cases h3 : c.toNat = 8
        · rw [if_pos h3, List.cons_append, List.cons_append, List.nil_append,
            parseJsonStrAux_succ_cons]
          rw [char_eq_ofNat h3]
          simp [ih fuel]
        · rw [if_neg h3]
          by_cases h4 : c.toNat = 9
          · rw [if_pos h4, List.cons_append, List.cons_append,
              List.nil_append, parseJsonStrAux_succ_cons]
            rw [char_eq_ofNat h4]
            simp [ih fuel]
          · rw [if_neg h4]
            by_cases h5 : c.toNat = 10
            · rw [if_pos h5, List.cons_append, List.cons_append,
                List.nil_append, parseJsonStrAux_succ_cons]
              rw [char_eq_ofNat h5]
              simp [ih fuel]
            · rw [if_neg h5]
              by_cases h6 : c.toNat = 12
              · rw [if_pos h6, List.cons_append, List.cons_append,
                  List.nil_append, parseJsonStrAux_succ_cons]
                rw [char_eq_ofNat h6]
                simp [ih fuel]
              · rw [if_neg h6]
                by_cases h7 : c.toNat = 13
                · rw [if_pos h7, List.cons_append, List.cons_append,
                    List.nil_append, parseJsonStrAux_succ_cons]
                  rw [char_eq_ofNat h7]
                  simp [ih fuel]
                · rw [if_neg h7]
                  by_cases h8 : c.toNat < 32
                  · rw [if_pos h8, List.cons_append, List.cons_append,
                      List.cons_append, List.cons_append, List.cons_append,
                      List.cons_append, List.nil_append,
                      parseJsonStrAux_succ_cons]
                    have hd1 : c.toNat / 16 < 16 := by omega
                    have hd2 : c.toNat % 16 < 16 := Nat.mod_lt _ (by omega)
                    have hval : 0 * 4096 + 0 * 256 + c.toNat / 16 * 16 +
                        c.toNat % 16 = c.toNat := by omega
                    have hsur : ¬(0xD800 ≤ 0 * 4096 + 0 * 256 +
                        c.toNat / 16 * 16 + c.toNat % 16 ∧
                        0 * 4096 + 0 * 256 + c.toNat / 16 * 16 +
                          c.toNat % 16 < 0xE000) := by omega
                    conv_lhs =>
                      rw [if_neg (by decide : ¬('\\' : Char) = '"'),
                        if_pos rfl]
                    simp only [hexVal_hexLower hd1, hexVal_hexLower hd2]
                    simp only [show hexVal '0' = some 0 from rfl]
                    simp only [ih fuel, hsur, not_false_iff, if_true]
                    have hv2 : c.toNat / 16 * 16 + c.toNat % 16 = c.toNat := by
                      omega
                    simp [hv2, Char.ofNat_toNat]
                  · rw [if_neg h8, List.cons_append, List.nil_append,
                      parseJsonStrAux_succ_cons, if_neg h1, if_neg h2,
                      ih fuel]
                    rfl

/-! ## `IpfsService.uploadJson` / `createDataUri`
(src/unnamed/part_001, lines 44–97 and 170–180)

```ts
async uploadJson(metadata: MetadataJson): Promise<string> {
  try {
    if (!this.pinataJwt) { return this.createDataUri(metadata); }
    const response = await fetch(this.jsonApiUrl, ...);
    if (!response.ok) throw new Error(...);
    return `https://gateway.pinata.cloud/ipfs/${result.IpfsHash}`;
  } catch (error) { return this.createDataUri(metadata); }
}
private createDataUri(metadata: MetadataJson): string {
  const minimalMetadata = { name: metadata.name, symbol: metadata.symbol,
    description: metadata.description };
  const jsonString = JSON.stringify(minimalMetadata);
  const encoded = encodeURIComponent(jsonString);
  return `data:application/json,${encoded}`;
}
```
-/

/-- An attribute value in the metadata document: string or number. -/
inductive AttrVal
  | str (s : List Char)
  | num (n : Nat)
deriving Repr, DecidableEq

structure MetadataAttribute where
  traitType : List Char
  value : AttrVal
deriving Repr, DecidableEq

/-- The full metadata document built by `TokenService.launchToken`. -/
structure MetadataJson where
  name : List Char
  symbol : List Char
  description : List Char
  image : List Char
  external_url : List Char
  attributes : List MetadataAttribute
deriving Repr, DecidableEq

/-- The minimized document recovered from an inline data-URI locator:
exactly the name, symbol and description fields, nothing else. -/
structure MinimalMetadata where
  name : List Char
  symbol : List Char
  description : List Char
deriving Repr, DecidableEq

/-- A JSON string literal: quoted and escaped. -/
def jsonQuote (s : List Char) : List Char := '"' :: jsonEscape s ++ ['"']

/-- The result of `JSON.stringify` on the minimal document: keys in insertion order,
no whitespace. -/
def stringifyMinimal (m : MetadataJson) : List Char :=
  [lbrace] ++ jsonQuote "name".toList ++ [':'] ++ jsonQuote m.name ++
  [','] ++ jsonQuote "symbol".toList ++ [':'] ++ jsonQuote m.symbol ++
  [','] ++ jsonQuote "description".toList ++ [':'] ++
  jsonQuote m.description ++ [rbrace]

/-- The source's `IpfsService.createDataUri`. -/
def createDataUri (m : MetadataJson) : List Char :=
  "data:application/json,".toList ++ encodeURIComponent (stringifyMinimal m)

/-- The source's `IpfsService.uploadJson`: with no configured Pinata JWT, or when the
pinning call fails, fall back to the inline data URI; this function never
fails. -/
def uploadJson (jwt : List Char)
    (pinataResult : Except (List Char) (List Char)) (m : MetadataJson) :
    List Char :=
  if jwt = [] then createDataUri m
  else
    match pinataResult with
    | .ok hash => "https://gateway.pinata.cloud/ipfs/".toList ++ hash
    | .error _ => createDataUri m

/-- Consume an expected literal prefix. -/
def consumeLit (pre l : List Char) : Option (List Char) :=
  if pre.isPrefixOf l then some (l.drop pre.length) else none

/-- Parse the stringified minimal document back into its three fields. -/
def parseMinimalJson (l : List Char) : Option MinimalMetadata := do
  let l1 ← consumeLit ([lbrace] ++ jsonQuote "name".toList ++ [':', '"']) l
  let (name, l2) ← parseJsonStr l1
  let l3 ← consumeLit ([','] ++ jsonQuote "symbol".toList ++ [':', '"']) l2
  let (symbol, l4) ← parseJsonStr l3
  let l5 ← consumeLit
    ([','] ++ jsonQuote "description".toList ++ [':', '"']) l4
  let (description, l6) ← parseJsonStr l5
  if l6 = [rbrace] then pure ⟨name, symbol, description⟩ else none

/-- Decode an inline locator produced by `createDataUri`. -/
def decodeDataUri (uri : List Char) : Option MinimalMetadata := do
  let body ← consumeLit "data:application/json,".toList uri
  let bytes ← percentUnescape body
  let chars ← utf8Decode bytes
  parseMinimalJson chars

theorem isPrefixOf_append_self (pre rest : List Char) :
    pre.isPrefixOf (pre ++ rest) = true := by
  induction pre with
  | nil => simp [List.isPrefixOf]
  | cons a as ih => simp [List.isPrefixOf, ih]

theorem consumeLit_append (pre rest : List Char) :
    consumeLit pre (pre ++ rest) = some rest := by
  rw [consumeLit, if_pos (isPrefixOf_append_self pre rest), List.drop_left]

theorem jsonEscapeChar_length_pos (c : Char) :
    0 < (jsonEscapeChar c).length := by
  rw [jsonEscapeChar]
  split_ifs <;> simp

theorem jsonEscape_length (s : List Char) :
    s.length ≤ (jsonEscape s).length := by
  induction s with
  | nil => simp [jsonEscape]
  | cons c cs ih =>
    rw [jsonEscape, List.flatMap_cons, ← jsonEscape, List.length_append,
      List.length_cons]
    have := jsonEscapeChar_length_pos c
    omega

theorem parseJsonStr_escape (v rest : List Char) :
    parseJsonStr (jsonEscape v ++ '"' :: rest) = some (v, rest) := by
  rw [parseJsonStr]
  have h1 : v.length ≤ (jsonEscape v).length := jsonEscape_length v
  have hlen : (jsonEscape v ++ '"' :: rest).length =
      v.length + (((jsonEscape v).length - v.length + rest.length) + 1) := by
    rw [List.length_append, List.length_cons]
    omega
  rw [hlen, parseJsonStrAux_escape]

theorem parseMinimalJson_stringify (m : MetadataJson) :
    parseMinimalJson (stringifyMinimal m) =
      some ⟨m.name, m.symbol, m.description⟩ := by
  have hshape : stringifyMinimal m =
      ([lbrace] ++ jsonQuote "name".toList ++ [':', '"']) ++
        (jsonEscape m.name ++ '"' ::
          (([','] ++ jsonQuote "symbol".toList ++ [':', '"']) ++
            (jsonEscape m.symbol ++ '"' ::
              (([','] ++ jsonQuote "description".toList ++ [':', '"']) ++
                (jsonEscape m.description ++ '"' :: [rbrace]))))) := by
    rw [stringifyMinimal]
    simp [jsonQuote, List.append_assoc]
  rw [parseMinimalJson, hshape, consumeLit_append]
  simp only [Option.bind_eq_bind, Option.some_bind]
  rw [parseJsonStr_escape]
  simp only [Option.some_bind]
  rw [consumeLit_append]
  simp only [Option.some_bind]
  rw [parseJsonStr_escape]
  simp only [Option.some_bind]
  rw [consumeLit_append]
  simp only [Option.some_bind]
  rw [parseJsonStr_escape]
  simp only [Option.some_bind]
  simp

/-- C4: whenever no pinning backend is configured (empty Pinata JWT) or the
backend call fails, `uploadJson` returns (never raises) the inline data-URI
locator, and decoding that locator yields a document holding exactly the
input's name, symbol and description and nothing else. -/
theorem uploadJson_fallback_roundtrip (jwt : List Char)
    (pinataResult : Except (List Char) (List Char)) (m : MetadataJson)
    (h : jwt = [] ∨ ∃ e, pinataResult = Except.error e) :
    uploadJson jwt pinataResult m = createDataUri m ∧
    decodeDataUri (uploadJson jwt pinataResult m) =
      some ⟨m.name, m.symbol, m.description⟩ := by
  have hfall : uploadJson jwt pinataResult m = createDataUri m := by
    rw [uploadJson.eq_def]
    by_cases hj : jwt = []
    · rw [if_pos hj]
    · rw [if_neg hj]
      rcases h with h | ⟨e, he⟩
      · exact absurd h hj
      · rw [he]
  refine ⟨hfall, ?_⟩
  rw [hfall, createDataUri, decodeDataUri, consumeLit_append]
  simp only [Option.bind_eq_bind, Option.some_bind]
  rw [percentUnescape_encodeURIComponent]
  simp only [Option.some_bind]
  rw [utf8Decode_utf8EncodeAll]
  simp only [Option.some_bind]
  exact parseMinimalJson_stringify m

/-- C4 witness. -/
theorem uploadJson_fallback_roundtrip_witness :
    ((([] : List Char) = [] ∨
        ∃ e, (Except.error "boom".toList :
          Except (List Char) (List Char)) = Except.error e) ∧
      (uploadJson [] (Except.error "boom".toList)
          ⟨"Tok".toList, "TK".toList, "desc".toList, [], [], []⟩ =
        createDataUri
          ⟨"Tok".toList, "TK".toList, "desc".toList, [], [], []⟩ ∧
      decodeDataUri (uploadJson [] (Except.error "boom".toList)
          ⟨"Tok".toList, "TK".toList, "desc".toList, [], [], []⟩) =
        some ⟨"Tok".toList, "TK".toList, "desc".toList⟩)) :=
  ⟨Or.inl rfl,
    uploadJson_fallback_roundtrip [] (Except.error "boom".toList)
      ⟨"Tok".toList, "TK".toList, "desc".toList, [], [], []⟩ (Or.inl rfl)⟩

/-! ## `TokenService` (src/unnamed/part_002)

JS string helpers used by `validateTokenRequest`: `trim` (JavaScript
WhiteSpace ∪ LineTerminator) and `.length` (UTF-16 code units). -/

/-- The characters removed by JavaScript's `String.prototype.trim`. -/
def isJsWhitespace (c : Char) : Bool :=
  c.toNat = 9 || c.toNat = 10 || c.toNat = 11 || c.toNat = 12 ||
  c.toNat = 13 || c.toNat = 32 || c.toNat = 160 || c.toNat = 0x1680 ||
  (0x2000 ≤ c.toNat && c.toNat ≤ 0x200A) || c.toNat = 0x2028 ||
  c.toNat = 0x2029 || c.toNat = 0x202F || c.toNat = 0x205F ||
  c.toNat = 0x3000 || c.toNat = 0xFEFF

/-- JS `String.prototype.trim`. -/
def jsTrim (s : List Char) : List Char :=
  ((s.dropWhile isJsWhitespace).reverse.dropWhile isJsWhitespace).reverse

/-- JavaScript's `.length`: UTF-16 code units (astral code points count
twice). -/
def utf16Length (s : List Char) : Nat :=
  (s.map fun c => if c.toNat < 0x10000 then 1 else 2).sum

/-- Validity of an address: `new PublicKey(str)` succeeds iff the base-58 decode of `str` yields
exactly 32 bytes. -/
def isValidPublicKey (s : List Char) : Bool :=
  match base58Decode s with
  | some bytes => bytes.length = 32
  | none => false

/-- The `LaunchTokenRequest` shape (src/unnamed/part_002 models; optional fields are
`Option`, a `none`/empty string being falsy in the source's checks). -/
structure LaunchTokenRequest where
  userWallet : List Char
  name : List Char
  symbol : List Char
  description : Option (List Char)
  imageUpload : Option (List Char)
  imageUrl : Option (List Char)
  website : Option (List Char)
  twitter : Option (List Char)
  discord : Option (List Char)
deriving Repr, DecidableEq

/-- The source's `TokenService.validateTokenRequest` (lines 276–302): the checks in
source order, each failure throwing its message. -/
def validateTokenRequest (r : LaunchTokenRequest) :
    Except (List Char) Unit :=
  if jsTrim r.name = [] then .error "Token name is required".toList
  else if 32 < utf16Length r.name then
    .error "Token name must be 32 characters or less".toList
  else if jsTrim r.symbol = [] then .error "Token symbol is required".toList
  else if 10 < utf16Length r.symbol then
    .error "Token symbol must be 10 characters or less".toList
  else if r.userWallet = [] then
    .error "User wallet address is required".toList
  else if ¬ isValidPublicKey r.userWallet then
    .error "Invalid user wallet address".toList
  else
    match r.description with
    | some d =>
        if d ≠ [] ∧ 200 < utf16Length d then
          .error "Description must be 200 characters or less".toList
        else .ok ()
    | none => .ok ()

/-- The `config` object (src/unnamed/part_000): fixed token settings plus the
environment-derived launch fee (`LAUNCH_FEE_SOL`, default 0.1 SOL). -/
structure Config where
  defaultDecimals : Nat
  defaultSupply : Nat
  launchFeeLamports : Nat
deriving Repr, DecidableEq

/-- The config with the in-code constants: 9 decimals, supply
`1_000_000_000_000_000_000n`. -/
def mkConfig (launchFeeLamports : Nat) : Config :=
  { defaultDecimals := 9
    defaultSupply := 1000000000000000000
    launchFeeLamports := launchFeeLamports }

/-- JS `Number(bigint)` on a non-negative integer: round to the nearest IEEE-754
double (53-bit significand, ties to even).  Exact whenever the value fits in
53 significant bits at its scale. -/
def toFloat64Int (n : Nat) : Nat :=
  if n < 2 ^ 53 then n
  else
    let e := n.log2 - 52
    let q := n / 2 ^ e
    let r := n % 2 ^ e
    let half := 2 ^ (e - 1)
    let q2 := if half < r ∨ (r = half ∧ q % 2 = 1) then q + 1 else q
    q2 * 2 ^ e

/-- The two authorities revoked at step 8 of `launchToken`. -/
inductive Authority
  | mintTokens
  | freezeAccount
deriving Repr, DecidableEq

/-- Externally observable network effects of one `launchToken` run, in order
of occurrence.  A submit/confirm pair models a `sendAndConfirm`-style helper;
`submitSetAuthority` records the new authority passed (`none` = revoked). -/
inductive Event
  | ipfsUploadImage
  | ipfsUploadJson
  | submitCreateToken
  | confirmCreateToken
  | getAccountInfo
  | submitCreateAta
  | confirmCreateAta
  | submitMintTo (amount : Nat)
  | confirmMintTo
  | submitSetAuthority (a : Authority) (newAuthority : Option (List Char))
  | confirmSetAuthority (a : Authority)
deriving Repr, DecidableEq

/-- Outcomes of the external collaborators (ledger RPC, pinning backend, key
custodian, deterministic address derivations) for one run; `launchToken` is
deterministic given these. -/
structure LedgerEnv where
  masterKeypair : Except (List Char) Keypair
  mintAddress : List Char
  imageUploadUrl : List Char
  pinataJwt : List Char
  pinataJson : Except (List Char) (List Char)
  createToken : Except (List Char) (List Char)
  deriveAta : List Char → List Char → List Char
  ataExists : Bool
  ataSend : Except (List Char) (List Char)
  ataConfirm : Except (List Char) Unit
  mintTo : Except (List Char) (List Char)
  mintConfirm : Except (List Char) Unit
  revokeMint : Except (List Char) Unit
  revokeFreeze : Except (List Char) Unit
  deriveMetadataPda : List Char → List Char

/-- The `LaunchTokenResponse` shape (src/unnamed/part_002 models). -/
structure LaunchTokenResponse where
  success : Bool
  mintAddress : List Char
  metadataAddress : List Char
  userTokenAccount : List Char
  totalSupply : List Char
  userBalance : List Char
  transactionSignature : List Char
  explorerUrl : List Char
  fee : List Char
deriving Repr, DecidableEq

/-- Truthiness of `request.imageUpload && !imageUrl`. -/
def imageCond (r : LaunchTokenRequest) : Bool :=
  (match r.imageUpload with
    | some u => u ≠ []
    | none => false) &&
  (match r.imageUrl with
    | some u => u = []
    | none => true)

/-- The default description: `request.description` or the template over the name. -/
def descOrDefault (r : LaunchTokenRequest) : List Char :=
  match r.description with
  | some d => if d = [] then r.name ++ " - Simple immutable token".toList else d
  | none => r.name ++ " - Simple immutable token".toList

/-- The metadata document assembled at step 3 of `launchToken`. -/
def buildMetadata (cfg : Config) (r : LaunchTokenRequest)
    (imageUrl : List Char) : MetadataJson :=
  let base : List MetadataAttribute :=
    [⟨"Platform".toList, .str "Launchium".toList⟩,
     ⟨"Standard".toList, .str "SPL Token".toList⟩,
     ⟨"Decimals".toList, .num cfg.defaultDecimals⟩,
     ⟨"Supply".toList, .str "1,000,000,000".toList⟩,
     ⟨"Immutable".toList, .str "true".toList⟩]
  let withSite := match r.website with
    | some w => if w ≠ [] then base ++ [⟨"Website".toList, .str w⟩] else base
    | none => base
  let withTwitter := match r.twitter with
    | some t => if t ≠ [] then withSite ++ [⟨"Twitter".toList, .str t⟩]
        else withSite
    | none => withSite
  let withDiscord := match r.discord with
    | some d => if d ≠ [] then withTwitter ++ [⟨"Discord".toList, .str d⟩]
        else withTwitter
    | none => withTwitter
  { name := r.name
    symbol := r.symbol
    description := descOrDefault r
    image := imageUrl
    external_url := (r.website.getD [])
    attributes := withDiscord }

/-- The error prefix added by `launchToken`'s outer catch. -/
def mintFailMsg : List Char := "Token mint failed: ".toList

/-- Steps 7–9 of `launchToken` (mint, revoke authorities, assemble the
response), entered once the recipient's associated token account exists. -/
def mintAndRevoke (cfg : Config) (env : LedgerEnv) (sig : List Char)
    (uta : List Char) (ev : List Event) :
    Except (List Char) LaunchTokenResponse × List Event :=
  let mintAmount := toFloat64Int cfg.defaultSupply
  let ev := ev ++ [Event.submitMintTo mintAmount]
  match env.mintTo with
  | .error e =>
      (.error (mintFailMsg ++ "Failed to mint tokens: ".toList ++ e), ev)
  | .ok _mintSig =>
    let ev := ev ++ [Event.confirmMintTo, Event.confirmMintTo]
    match env.mintConfirm with
    | .error e =>
        (.error (mintFailMsg ++ "Failed to mint tokens: ".toList ++ e), ev)
    | .ok _ =>
      let ev := ev ++ [Event.submitSetAuthority Authority.mintTokens none]
      match env.revokeMint with
      | .error e => (.error (mintFailMsg ++ e), ev)
      | .ok _ =>
        let ev := ev ++ [Event.confirmSetAuthority Authority.mintTokens,
          Event.submitSetAuthority Authority.freezeAccount none]
        match env.revokeFreeze with
        | .error e => (.error (mintFailMsg ++ e), ev)
        | .ok _ =>
          let ev := ev ++ [Event.confirmSetAuthority Authority.freezeAccount]
          let resp : LaunchTokenResponse :=
            { success := true
              mintAddress := env.mintAddress
              metadataAddress := env.deriveMetadataPda env.mintAddress
              userTokenAccount := uta
              totalSupply := natToChars cfg.defaultSupply
              userBalance := natToChars cfg.defaultSupply
              transactionSignature := sig
              explorerUrl := "https://explorer.solana.com/tx/".toList ++
                sig ++ "?cluster=mainnet".toList
              fee := "0.1".toList }
          (.ok resp, ev)

/-- The source's `TokenService.launchToken` (src/unnamed/part_002, lines 68–244),
single-shot mode.  The hard-coded fee is `0.1 * LAMPORTS_PER_SOL`, which the
double-precision arithmetic of the source evaluates to exactly `100000000`
lamports, reported as the string `"0.1"` (SOL); the signature string folds
the source's base-64 rendering of the opaque signature bytes. -/
def launchToken (cfg : Config) (env : LedgerEnv) (r : LaunchTokenRequest) :
    Except (List Char) LaunchTokenResponse × List Event :=
  match env.masterKeypair with
  | .error e => (.error (mintFailMsg ++ e), [])
  | .ok _ =>
    match validateTokenRequest r with
    | .error e => (.error (mintFailMsg ++ e), [])
    | .ok _ =>
      let ev : List Event :=
        if imageCond r then [Event.ipfsUploadImage] else []
      let imageUrl :=
        if imageCond r then env.imageUploadUrl else r.imageUrl.getD []
      let metadata := buildMetadata cfg r imageUrl
      let _metadataUri := uploadJson env.pinataJwt env.pinataJson metadata
      let ev := ev ++ [Event.ipfsUploadJson, Event.submitCreateToken]
      match env.createToken with
      | .error e => (.error (mintFailMsg ++ e), ev)
      | .ok sig =>
        let ev := ev ++ [Event.confirmCreateToken]
        let uta := env.deriveAta env.mintAddress r.userWallet
        let ev := ev ++ [Event.getAccountInfo]
        if env.ataExists then mintAndRevoke cfg env sig uta ev
        else
          let ev := ev ++ [Event.submitCreateAta]
          match env.ataSend with
          | .error e => (.error (mintFailMsg ++ e), ev)
          | .ok _ =>
            let ev := ev ++ [Event.confirmCreateAta]
            match env.ataConfirm with
            | .error e => (.error (mintFailMsg ++ e), ev)
            | .ok _ => mintAndRevoke cfg env sig uta ev

/-- The event trace of a successful single-shot run. -/
def successTrace (cfg : Config) (env : LedgerEnv) (r : LaunchTokenRequest) :
    List Event :=
  (if imageCond r then [Event.ipfsUploadImage] else []) ++
  [Event.ipfsUploadJson, Event.submitCreateToken, Event.confirmCreateToken,
   Event.getAccountInfo] ++
  (if env.ataExists then []
    else [Event.submitCreateAta, Event.confirmCreateAta]) ++
  [Event.submitMintTo (toFloat64Int cfg.defaultSupply), Event.confirmMintTo,
   Event.confirmMintTo, Event.submitSetAuthority Authority.mintTokens none,
   Event.confirmSetAuthority Authority.mintTokens,
   Event.submitSetAuthority Authority.freezeAccount none,
   Event.confirmSetAuthority Authority.freezeAccount]

/-- The response of a successful single-shot run with creation signature
`sig`. -/
def successResponse (cfg : Config) (env : LedgerEnv)
    (r : LaunchTokenRequest) (sig : List Char) : LaunchTokenResponse :=
  { success := true
    mintAddress := env.mintAddress
    metadataAddress := env.deriveMetadataPda env.mintAddress
    userTokenAccount := env.deriveAta env.mintAddress r.userWallet
    totalSupply := natToChars cfg.defaultSupply
    userBalance := natToChars cfg.defaultSupply
    transactionSignature := sig
    explorerUrl := "https://explorer.solana.com/tx/".toList ++ sig ++
      "?cluster=mainnet".toList
    fee := "0.1".toList }

/-- Inversion: every run of `launchToken` that returns `ok` produced exactly
the success trace and the success response. -/
theorem launchToken_ok_inv (cfg : Config) (env : LedgerEnv)
    (r : LaunchTokenRequest) (resp : LaunchTokenResponse)
    (trace : List Event)
    (h : launchToken cfg env r = (.ok resp, trace)) :
    ∃ sig, env.createToken = .ok sig ∧
      resp = successResponse cfg env r sig ∧
      trace = successTrace cfg env r := by
  rw [launchToken] at h
  cases hmk : env.masterKeypair with
  | error e => rw [hmk] at h; simp at h
  | ok kp =>
  rw [hmk] at h
  cases hv : validateTokenRequest r with
  | error e => rw [hv] at h; simp at h
  | ok u =>
  rw [hv] at h
  simp only [] at h
  cases hct : env.createToken with
  | error e => rw [hct] at h; simp at h
  | ok sig =>
  rw [hct] at h
  simp only [] at h
  refine ⟨sig, rfl, ?_⟩
  by_cases hata : env.ataExists
  · rw [if_pos hata] at h
    rw [mintAndRevoke] at h
    cases hmt : env.mintTo with
    | error e => rw [hmt] at h; simp at h
    | ok msig =>
    rw [hmt] at h
    simp only [] at h
    cases hmc : env.mintConfirm with
    | error e => rw [hmc] at h; simp at h
    | ok _ =>
    rw [hmc] at h
    simp only [] at h
    cases hrm : env.revokeMint with
    | error e => rw [hrm] at h; simp at h
    | ok _ =>
    rw [hrm] at h
    simp only [] at h
    cases hrf : env.revokeFreeze with
    | error e => rw [hrf] at h; simp at h
    | ok _ =>
    rw [hrf] at h
    simp only [Prod.mk.injEq, Except.ok.injEq] at h
    obtain ⟨hresp, htrace⟩ := h
    constructor
    · rw [← hresp, successResponse]
    · rw [← htrace, successTrace, if_pos hata]
      simp
  · rw [if_neg hata] at h
    cases has : env.ataSend with
    | error e => rw [has] at h; simp at h
    | ok asig =>
    rw [has] at h
    simp only [] at h
    cases hac : env.ataConfirm with
    | error e => rw [hac] at h; simp at h
    | ok _ =>
    rw [hac] at h
    simp only [] at h
    rw [mintAndRevoke] at h
    cases hmt : env.mintTo with
    | error e => rw [hmt] at h; simp at h
    | ok msig =>
    rw [hmt] at h
    simp only [] at h
    cases hmc : env.mintConfirm with
    | error e => rw [hmc] at h; simp at h
    | ok _ =>
    rw [hmc] at h
    simp only [] at h
    cases hrm : env.revokeMint with
    | error e => rw [hrm] at h; simp at h
    | ok _ =>
    rw [hrm] at h
    simp only [] at h
    cases hrf : env.revokeFreeze with
    | error e => rw [hrf] at h; simp at h
    | ok _ =>
    rw [hrf] at h
    simp only [Prod.mk.injEq, Except.ok.injEq] at h
    obtain ⟨hresp, htrace⟩ := h
    constructor
    · rw [← hresp, successResponse]
    · rw [← htrace, successTrace, if_neg hata]
      simp

/-- Forward run: with a valid request and every collaborator succeeding (and
the recipient account already existing), the pipeline returns the success
response and trace. -/
theorem launchToken_success (cfg : Config) (env : LedgerEnv)
    (r : LaunchTokenRequest) (kp : Keypair) (sig msig : List Char)
    (hmk : env.masterKeypair = .ok kp)
    (hv : validateTokenRequest r = .ok ())
    (hct : env.createToken = .ok sig)
    (hata : env.ataExists = true)
    (hmt : env.mintTo = .ok msig)
    (hmc : env.mintConfirm = .ok ())
    (hrm : env.revokeMint = .ok ())
    (hrf : env.revokeFreeze = .ok ()) :
    launchToken cfg env r =
      (.ok (successResponse cfg env r sig), successTrace cfg env r) := by
  rw [launchToken, hmk, hv, hct, hata]
  simp only [if_true]
  rw [mintAndRevoke]
  simp only []
  rw [hmt]
  simp only []
  rw [hmc]
  simp only []
  rw [hrm]
  simp only []
  rw [hrf]
  rw [successResponse, successTrace, hata]
  simp [List.append_assoc]

/-- C2: if token creation (step 4) succeeded, the run reached the mint step,
and the mint transaction failed, the run terminates with the ledger error
(reported verbatim under the run's failure prefix) and no authority
revocation is ever submitted — there is no rollback of the created token. -/
theorem launchToken_mint_failure_no_revoke (cfg : Config) (env : LedgerEnv)
    (r : LaunchTokenRequest) (kp : Keypair) (sig m : List Char)
    (hmk : env.masterKeypair = .ok kp)
    (hv : validateTokenRequest r = .ok ())
    (hct : env.createToken = .ok sig)
    (hata : env.ataExists = true ∨
      ((∃ asig, env.ataSend = .ok asig) ∧ env.ataConfirm = .ok ()))
    (hmt : env.mintTo = .error m) :
    (launchToken cfg env r).1 =
      .error (mintFailMsg ++ "Failed to mint tokens: ".toList ++ m) ∧
    ∀ a na, Event.submitSetAuthority a na ∉ (launchToken cfg env r).2 := by
  rcases hata with hata | ⟨⟨asig, has⟩, hac⟩
  · rw [launchToken, hmk, hv, hct, hata]
    simp only [if_true]
    rw [mintAndRevoke]
    simp only []
    rw [hmt]
    constructor
    · rfl
    · intro a na
      by_cases hic : imageCond r <;> simp [hic]
  · by_cases hata2 : env.ataExists
    · rw [launchToken, hmk, hv, hct, hata2]
      simp only [if_true]
      rw [mintAndRevoke]
      simp only []
      rw [hmt]
      constructor
      · rfl
      · intro a na
        by_cases hic : imageCond r <;> simp [hic]
    · rw [launchToken, hmk, hv, hct]
      have hb : env.ataExists = false := by
        cases h : env.ataExists
        · rfl
        · exact absurd h hata2
      rw [hb]
      simp only [Bool.false_eq_true, if_false]
      rw [has]
      simp only []
      rw [hac]
      simp only []
      rw [mintAndRevoke]
      simp only []
      rw [hmt]
      constructor
      · rfl
      · intro a na
        by_cases hic : imageCond r <;> simp [hic]

/-- Any violation of the validation rules makes `validateTokenRequest`
throw. -/
theorem validateTokenRequest_rejects (r : LaunchTokenRequest)
    (h : jsTrim r.name = [] ∨ 32 < utf16Length r.name ∨
      jsTrim r.symbol = [] ∨ 10 < utf16Length r.symbol ∨
      r.userWallet = [] ∨ isValidPublicKey r.userWallet = false ∨
      (∃ d, r.description = some d ∧ d ≠ [] ∧ 200 < utf16Length d)) :
    ∃ e, validateTokenRequest r = .error e := by
  rw [validateTokenRequest]
  by_cases h1 : jsTrim r.name = []
  · rw [if_pos h1]; exact ⟨_, rfl⟩
  · rw [if_neg h1]
    by_cases h2 : 32 < utf16Length r.name
    · rw [if_pos h2]; exact ⟨_, rfl⟩
    · rw [if_neg h2]
      by_cases h3 : jsTrim r.symbol = []
      · rw [if_pos h3]; exact ⟨_, rfl⟩
      · rw [if_neg h3]
        by_cases h4 : 10 < utf16Length r.symbol
        · rw [if_pos h4]; exact ⟨_, rfl⟩
        · rw [if_neg h4]
          by_cases h5 : r.userWallet = []
          · rw [if_pos h5]; exact ⟨_, rfl⟩
          · rw [if_neg h5]
            by_cases h6 : isValidPublicKey r.userWallet
            · rw [if_neg (by simp [h6])]
              cases hd : r.description with
              | none =>
                exfalso
                rcases h with h | h | h | h | h | h | ⟨d, hdd, _, _⟩
                · exact h1 h
                · exact h2 h
                · exact h3 h
                · exact h4 h
                · exact h5 h
                · rw [h6] at h; simp at h
                · rw [hd] at hdd; exact Option.noConfusion hdd
              | some d =>
                simp only []
                by_cases h7 : d ≠ [] ∧ 200 < utf16Length d
                · rw [if_pos h7]; exact ⟨_, rfl⟩
                · exfalso
                  rcases h with h | h | h | h | h | h | ⟨d2, hdd, hne, hlen⟩
                  · exact h1 h
                  · exact h2 h
                  · exact h3 h
                  · exact h4 h
                  · exact h5 h
                  · rw [h6] at h; simp at h
                  · rw [hd] at hdd
                    injection hdd with hdd2
                    subst hdd2
                    exact h7 ⟨hne, hlen⟩
            · rw [if_pos (by simpa using h6)]
              exact ⟨_, rfl⟩

/-- C3: a request with an over-long name, symbol or description, an invalid
recipient address, or empty required fields is rejected before any network
effect: the run errors and its event trace is empty (no pinning-service
call, no ledger submission). -/
theorem launchToken_invalid_no_network (cfg : Config) (env : LedgerEnv)
    (r : LaunchTokenRequest)
    (h : jsTrim r.name = [] ∨ 32 < utf16Length r.name ∨
      jsTrim r.symbol = [] ∨ 10 < utf16Length r.symbol ∨
      r.userWallet = [] ∨ isValidPublicKey r.userWallet = false ∨
      (∃ d, r.description = some d ∧ d ≠ [] ∧ 200 < utf16Length d)) :
    (∃ e, (launchToken cfg env r).1 = .error e) ∧
    (launchToken cfg env r).2 = [] := by
  rw [launchToken]
  cases hmk : env.masterKeypair with
  | error e => exact ⟨⟨_, rfl⟩, rfl⟩
  | ok kp =>
    obtain ⟨e, hv⟩ := validateTokenRequest_rejects r h
    rw [hv]
    exact ⟨⟨_, rfl⟩, rfl⟩

theorem jsTrim_eq_nil (s : List Char)
    (h : ∀ c ∈ s, isJsWhitespace c = true) : jsTrim s = [] := by
  rw [jsTrim, List.dropWhile_eq_nil_iff.mpr h]
  rfl

/-- C9: a request whose name — or, with a well-formed name, whose symbol —
is a non-empty string of only whitespace characters is rejected by the
emptiness check (which trims before testing) as a missing required field. -/
theorem launchToken_whitespace_required (cfg : Config) (env : LedgerEnv)
    (r : LaunchTokenRequest) (kp : Keypair)
    (hmk : env.masterKeypair = .ok kp)
    (h : (r.name ≠ [] ∧ ∀ c ∈ r.name, isJsWhitespace c = true) ∨
      (jsTrim r.name ≠ [] ∧ utf16Length r.name ≤ 32 ∧
        r.symbol ≠ [] ∧ ∀ c ∈ r.symbol, isJsWhitespace c = true)) :
    (launchToken cfg env r).1 =
      .error (mintFailMsg ++
        (if jsTrim r.name = [] then "Token name is required".toList
        else "Token symbol is required".toList)) := by
  rcases h with ⟨_hne, hws⟩ | ⟨htn, hlen, _hsne, hws⟩
  · have htrim := jsTrim_eq_nil r.name hws
    rw [launchToken, hmk, validateTokenRequest, if_pos htrim, if_pos htrim]
  · have htrim := jsTrim_eq_nil r.symbol hws
    rw [if_neg htn, launchToken, hmk, validateTokenRequest, if_neg htn,
      if_neg (by omega : ¬32 < utf16Length r.name), if_pos htrim]

/-- Exactness of `Number(config.defaultSupply)`: `10^18 = 7812500000000000 * 2^7` has a
53-bit significand, so the conversion to double is exact. -/
theorem toFloat64Int_defaultSupply :
    toFloat64Int 1000000000000000000 = 1000000000000000000 := by
  have hlog : Nat.log2 1000000000000000000 = 59 := by
    rw [Nat.log2_eq_log_two]
    refine Nat.log_eq_of_pow_le_of_lt_pow (by norm_num) (by norm_num)
  rw [toFloat64Int, if_neg (by norm_num), hlog]
  norm_num

/-- C7: on every successful single-shot run, the amount passed to the mint
transaction is exactly the configured supply (the bigint→number conversion
is exact), and the reported totalSupply and userBalance both equal that
supply's decimal rendering. -/
theorem launchToken_full_supply (fee : Nat) (env : LedgerEnv)
    (r : LaunchTokenRequest) (resp : LaunchTokenResponse) (trace : List Event)
    (h : launchToken (mkConfig fee) env r = (.ok resp, trace)) :
    toFloat64Int (mkConfig fee).defaultSupply = 1000000000000000000 ∧
    Event.submitMintTo 1000000000000000000 ∈ trace ∧
    resp.totalSupply = natToChars 1000000000000000000 ∧
    resp.userBalance = natToChars 1000000000000000000 := by
  obtain ⟨sig, hct, hresp, htrace⟩ := launchToken_ok_inv _ _ _ _ _ h
  have hexact : toFloat64Int (mkConfig fee).defaultSupply =
      1000000000000000000 := toFloat64Int_defaultSupply
  subst hresp htrace
  refine ⟨hexact, ?_, ?_, ?_⟩
  · rw [successTrace, hexact]
    simp
  · simp [successResponse, mkConfig]
  · simp [successResponse, mkConfig]

/-- Recognise an authority-revocation submission. -/
def isSubmitSetAuthority : Event → Bool
  | .submitSetAuthority _ _ => true
  | _ => false

/-- C8: on every successful run, the trace ends with the mint submission and
its confirmations followed by exactly the two revocations — mint authority
first, then freeze authority, each set to no authority (`none`), the first
confirmed before the second is submitted — and no revocation is submitted
anywhere before the mint completes. -/
theorem launchToken_revocation_order (cfg : Config) (env : LedgerEnv)
    (r : LaunchTokenRequest) (resp : LaunchTokenResponse) (trace : List Event)
    (h : launchToken cfg env r = (.ok resp, trace)) :
    ∃ pre, trace = pre ++
        [Event.submitMintTo (toFloat64Int cfg.defaultSupply),
         Event.confirmMintTo, Event.confirmMintTo,
         Event.submitSetAuthority Authority.mintTokens none,
         Event.confirmSetAuthority Authority.mintTokens,
         Event.submitSetAuthority Authority.freezeAccount none,
         Event.confirmSetAuthority Authority.freezeAccount] ∧
      (∀ a na, Event.submitSetAuthority a na ∉ pre) ∧
      (trace.filter isSubmitSetAuthority).length = 2 := by
  obtain ⟨sig, hct, hresp, htrace⟩ := launchToken_ok_inv _ _ _ _ _ h
  subst htrace
  refine ⟨(if imageCond r then [Event.ipfsUploadImage] else []) ++
      [Event.ipfsUploadJson, Event.submitCreateToken,
       Event.confirmCreateToken, Event.getAccountInfo] ++
      (if env.ataExists then []
        else [Event.submitCreateAta, Event.confirmCreateAta]), ?_, ?_, ?_⟩
  · rw [successTrace]
  · intro a na
    by_cases hic : imageCond r <;> by_cases hata : env.ataExists <;>
        simp only [hic, hata] <;> simp
  · rw [successTrace]
    by_cases hic : imageCond r <;> by_cases hata : env.ataExists <;>
        simp only [hic, hata] <;>
      simp [isSubmitSetAuthority]

/-- C6 (amended): the fee recorded in the result is the hard-coded 0.1 SOL
(100000000 lamports), independent of the configured `launchFeeLamports`; it
matches the configured fee only when that configuration is left at its
default. -/
theorem launchToken_fee_hardcoded (cfg : Config) (env : LedgerEnv)
    (r : LaunchTokenRequest) (resp : LaunchTokenResponse) (trace : List Event)
    (h : launchToken cfg env r = (.ok resp, trace)) :
    resp.fee = "0.1".toList ∧
    resp.fee = (formatTokenAmount 100000000 9).toList ∧
    (resp.fee = (formatTokenAmount cfg.launchFeeLamports 9).toList ↔
      (formatTokenAmount cfg.launchFeeLamports 9).toList = "0.1".toList) := by
  obtain ⟨sig, hct, hresp, htrace⟩ := launchToken_ok_inv _ _ _ _ _ h
  subst hresp
  refine ⟨rfl,
    (by decide :
      ("0.1".toList : List Char) = (formatTokenAmount 100000000 9).toList),
    ?_⟩
  constructor
  · intro h2
    rw [← h2]
    rfl
  · intro h2
    rw [h2]
    rfl

/-! ### Concrete fixtures for witnesses and the fee counterexample -/

/-- A structurally valid 32-byte recipient address (its base-58 form). -/
def walletBytes : List Nat := List.replicate 32 1

/-- A valid launch request. -/
def rOk : LaunchTokenRequest :=
  { userWallet := base58Encode walletBytes
    name := "Tok".toList
    symbol := "TK".toList
    description := some "desc".toList
    imageUpload := none
    imageUrl := none
    website := none
    twitter := none
    discord := none }

/-- An environment in which every collaborator succeeds. -/
def envOk : LedgerEnv :=
  { masterKeypair := .ok ⟨List.replicate 64 7⟩
    mintAddress := "MintAddr".toList
    imageUploadUrl := []
    pinataJwt := []
    pinataJson := .error []
    createToken := .ok "sig".toList
    deriveAta := fun m w => "ata:".toList ++ m ++ w
    ataExists := true
    ataSend := .ok "asig".toList
    ataConfirm := .ok ()
    mintTo := .ok "msig".toList
    mintConfirm := .ok ()
    revokeMint := .ok ()
    revokeFreeze := .ok ()
    deriveMetadataPda := fun m => "pda:".toList ++ m }

/-- Like `envOk` but the mint transaction fails. -/
def envMintFail : LedgerEnv :=
  { envOk with mintTo := .error "boom".toList }

/-- C6 counterexample: with the launch fee configured to 0.2 SOL
(`launchFeeLamports = 200000000`), a successful run still reports a fee of
`"0.1"`, which differs from the configured fee's SOL rendering `"0.2"`. -/
theorem launchToken_fee_counterexample :
    launchToken (mkConfig 200000000) envOk rOk =
      (.ok (successResponse (mkConfig 200000000) envOk rOk "sig".toList),
        successTrace (mkConfig 200000000) envOk rOk) ∧
    (successResponse (mkConfig 200000000) envOk rOk "sig".toList).fee =
      "0.1".toList ∧
    (formatTokenAmount (mkConfig 200000000).launchFeeLamports 9).toList =
      "0.2".toList ∧
    ("0.1".toList : List Char) ≠ "0.2".toList := by
  refine ⟨?_, rfl, by decide, by decide⟩
  exact launchToken_success (mkConfig 200000000) envOk rOk
    ⟨List.replicate 64 7⟩ "sig".toList "msig".toList rfl rfl
    rfl rfl rfl rfl rfl rfl

/-- C6 witness (for the amended theorem). -/
theorem launchToken_fee_hardcoded_witness :
    launchToken (mkConfig 100000000) envOk rOk =
      (.ok (successResponse (mkConfig 100000000) envOk rOk "sig".toList),
        successTrace (mkConfig 100000000) envOk rOk) ∧
    ((successResponse (mkConfig 100000000) envOk rOk "sig".toList).fee =
        "0.1".toList ∧
      (successResponse (mkConfig 100000000) envOk rOk "sig".toList).fee =
        (formatTokenAmount 100000000 9).toList ∧
      ((successResponse (mkConfig 100000000) envOk rOk "sig".toList).fee =
          (formatTokenAmount (mkConfig 100000000).launchFeeLamports 9).toList ↔
        (formatTokenAmount
            (mkConfig 100000000).launchFeeLamports 9).toList =
          "0.1".toList)) :=
  have hrun : launchToken (mkConfig 100000000) envOk rOk =
      (.ok (successResponse (mkConfig 100000000) envOk rOk "sig".toList),
        successTrace (mkConfig 100000000) envOk rOk) :=
    launchToken_success (mkConfig 100000000) envOk rOk
      ⟨List.replicate 64 7⟩ "sig".toList "msig".toList rfl rfl
      rfl rfl rfl rfl rfl rfl
  ⟨hrun, launchToken_fee_hardcoded (mkConfig 100000000) envOk rOk _ _ hrun⟩

/-- C7 witness. -/
theorem launchToken_full_supply_witness :
    launchToken (mkConfig 100000000) envOk rOk =
      (.ok (successResponse (mkConfig 100000000) envOk rOk "sig".toList),
        successTrace (mkConfig 100000000) envOk rOk) ∧
    (toFloat64Int (mkConfig 100000000).defaultSupply =
        1000000000000000000 ∧
      Event.submitMintTo 1000000000000000000 ∈
        successTrace (mkConfig 100000000) envOk rOk ∧
      (successResponse (mkConfig 100000000) envOk rOk
          "sig".toList).totalSupply = natToChars 1000000000000000000 ∧
      (successResponse (mkConfig 100000000) envOk rOk
          "sig".toList).userBalance = natToChars 1000000000000000000) :=
  have hrun : launchToken (mkConfig 100000000) envOk rOk =
      (.ok (successResponse (mkConfig 100000000) envOk rOk "sig".toList),
        successTrace (mkConfig 100000000) envOk rOk) :=
    launchToken_success (mkConfig 100000000) envOk rOk
      ⟨List.replicate 64 7⟩ "sig".toList "msig".toList rfl rfl
      rfl rfl rfl rfl rfl rfl
  ⟨hrun, launchToken_full_supply 100000000 envOk rOk _ _ hrun⟩

/-- C8 witness. -/
theorem launchToken_revocation_order_witness :
    launchToken (mkConfig 100000000) envOk rOk =
      (.ok (successResponse (mkConfig 100000000) envOk rOk "sig".toList),
        successTrace (mkConfig 100000000) envOk rOk) ∧
    (∃ pre, successTrace (mkConfig 100000000) envOk rOk = pre ++
        [Event.submitMintTo (toFloat64Int (mkConfig 100000000).defaultSupply),
         Event.confirmMintTo, Event.confirmMintTo,
         Event.submitSetAuthority Authority.mintTokens none,
         Event.confirmSetAuthority Authority.mintTokens,
         Event.submitSetAuthority Authority.freezeAccount none,
         Event.confirmSetAuthority Authority.freezeAccount] ∧
      (∀ a na, Event.submitSetAuthority a na ∉ pre) ∧
      ((successTrace (mkConfig 100000000) envOk rOk).filter
          isSubmitSetAuthority).length = 2) :=
  have hrun : launchToken (mkConfig 100000000) envOk rOk =
      (.ok (successResponse (mkConfig 100000000) envOk rOk "sig".toList),
        successTrace (mkConfig 100000000) envOk rOk) :=
    launchToken_success (mkConfig 100000000) envOk rOk
      ⟨List.replicate 64 7⟩ "sig".toList "msig".toList rfl rfl
      rfl rfl rfl rfl rfl rfl
  ⟨hrun, launchToken_revocation_order (mkConfig 100000000) envOk rOk _ _ hrun⟩

/-- C2 witness. -/
theorem launchToken_mint_failure_no_revoke_witness :
    envMintFail.masterKeypair = .ok ⟨List.replicate 64 7⟩ ∧
    validateTokenRequest rOk = .ok () ∧
    envMintFail.createToken = .ok "sig".toList ∧
    (envMintFail.ataExists = true ∨
      ((∃ asig, envMintFail.ataSend = .ok asig) ∧
        envMintFail.ataConfirm = .ok ())) ∧
    envMintFail.mintTo = .error "boom".toList ∧
    ((launchToken (mkConfig 100000000) envMintFail rOk).1 =
        .error (mintFailMsg ++ "Failed to mint tokens: ".toList ++
          "boom".toList) ∧
      ∀ a na, Event.submitSetAuthority a na ∉
        (launchToken (mkConfig 100000000) envMintFail rOk).2) :=
  ⟨rfl, rfl, rfl, Or.inl rfl, rfl,
    launchToken_mint_failure_no_revoke (mkConfig 100000000) envMintFail rOk
      ⟨List.replicate 64 7⟩ "sig".toList "boom".toList rfl rfl rfl
      (Or.inl rfl) rfl⟩

/-- A request whose name has 33 characters. -/
def rBadName : LaunchTokenRequest :=
  { rOk with name := List.replicate 33 'A' }

/-- C3 witness. -/
theorem launchToken_invalid_no_network_witness :
    (jsTrim rBadName.name = [] ∨ 32 < utf16Length rBadName.name ∨
      jsTrim rBadName.symbol = [] ∨ 10 < utf16Length rBadName.symbol ∨
      rBadName.userWallet = [] ∨
      isValidPublicKey rBadName.userWallet = false ∨
      (∃ d, rBadName.description = some d ∧ d ≠ [] ∧
        200 < utf16Length d)) ∧
    ((∃ e, (launchToken (mkConfig 100000000) envOk rBadName).1 = .error e) ∧
      (launchToken (mkConfig 100000000) envOk rBadName).2 = []) :=
  ⟨Or.inr (Or.inl (by decide)),
    launchToken_invalid_no_network (mkConfig 100000000) envOk rBadName
      (Or.inr (Or.inl (by decide)))⟩

/-- A request whose name is a single space. -/
def rWsName : LaunchTokenRequest :=
  { rOk with name := [' '] }

/-- C9 witness. -/
theorem launchToken_whitespace_required_witness :
    envOk.masterKeypair = .ok ⟨List.replicate 64 7⟩ ∧
    ((rWsName.name ≠ [] ∧ ∀ c ∈ rWsName.name, isJsWhitespace c = true) ∨
      (jsTrim rWsName.name ≠ [] ∧ utf16Length rWsName.name ≤ 32 ∧
        rWsName.symbol ≠ [] ∧
        ∀ c ∈ rWsName.symbol, isJsWhitespace c = true)) ∧
    (launchToken (mkConfig 100000000) envOk rWsName).1 =
      .error (mintFailMsg ++
        (if jsTrim rWsName.name = [] then "Token name is required".toList
        else "Token symbol is required".toList)) :=
  ⟨rfl, Or.inl ⟨by decide, by decide⟩,
    launchToken_whitespace_required (mkConfig 100000000) envOk rWsName
      ⟨List.replicate 64 7⟩ rfl (Or.inl ⟨by decide, by decide⟩)⟩

/-! ## Two-phase sessions

Modelled from the spec: the implementations of `prepareTokenTransaction` /
`executeTokenTransaction` and their session store are not among these
sources — only their HTTP callers (src/src/api/token.ts) and the
`ExecuteTokenRequest` shape (src/unnamed/part_002) are.  The model follows
spec §3 (`LaunchSession`), §4.4 (`execute`) and §6 (`SessionStore`:
`create(session) -> id`, `consume(id) -> session|absent`). -/

/-- Modelled from the spec: a `LaunchSession` ties the mint identity used
when the unsigned transaction was built to the serialized transaction and a
creation timestamp. -/
structure LaunchSession where
  mintAddress : List Char
  transaction : List Char
  createdAt : Nat
deriving Repr, DecidableEq

/-- Modelled from the spec: the in-memory session map, keyed by opaque
session identifiers, at most one live session per identifier. -/
def SessionStore := List (List Char × LaunchSession)

/-- Modelled from the spec: `consume` reads the session once and
invalidates it (read-then-invalidate). -/
def SessionStore.consume (st : SessionStore) (id : List Char) :
    Option LaunchSession × SessionStore :=
  (st.lookup id, st.filter (fun p => p.1 ≠ id))

/-- The `ExecuteTokenRequest` shape (src/unnamed/part_002, lines 479–482). -/
structure ExecuteTokenRequest where
  sessionId : List Char
  signedTransaction : List Char
deriving Repr, DecidableEq

inductive ExecuteError
  | sessionNotFound
  | sessionMismatch
  | ledgerError (msg : List Char)
deriving Repr, DecidableEq

/-- Outcomes of the external collaborators during `execute`. -/
structure ExecEnv where
  txMintAddress : List Char → Option (List Char)
  submit : Except (List Char) (List Char)
  confirm : Except (List Char) Unit

/-- Modelled from the spec (§4.4): `execute` looks up and consumes the
session (missing session: fatal `SessionNotFoundError`), checks the signed
transaction against the session's recorded mint identity (fatal
`SessionMismatchError`), then submits and awaits confirmation; in every
branch the session is no longer in the store afterwards. -/
def executeTokenTransaction (st : SessionStore) (env : ExecEnv)
    (req : ExecuteTokenRequest) :
    Except ExecuteError (List Char) × SessionStore :=
  match SessionStore.consume st req.sessionId with
  | (none, st2) => (.error .sessionNotFound, st2)
  | (some sess, st2) =>
      match env.txMintAddress req.signedTransaction with
      | none => (.error (.ledgerError "deserialize failed".toList), st2)
      | some mint =>
          if mint ≠ sess.mintAddress then (.error .sessionMismatch, st2)
          else
            match env.submit with
            | .error e => (.error (.ledgerError e), st2)
            | .ok sig =>
                match env.confirm with
                | .error e => (.error (.ledgerError e), st2)
                | .ok _ => (.ok sig, st2)

/-- Whatever the outcome, `execute` leaves the store with the session id
removed. -/
theorem executeTokenTransaction_store (st : SessionStore) (env : ExecEnv)
    (req : ExecuteTokenRequest) :
    (executeTokenTransaction st env req).2 =
      st.filter (fun p => p.1 ≠ req.sessionId) := by
  rw [executeTokenTransaction, SessionStore.consume]
  cases hl : st.lookup req.sessionId with
  | none => rfl
  | some sess =>
    simp only []
    cases hm : env.txMintAddress req.signedTransaction with
    | none => rfl
    | some mint =>
      simp only []
      by_cases hne : mint ≠ sess.mintAddress
      · rw [if_pos hne]
      · rw [if_neg hne]
        cases hs : env.submit with
        | error e => rfl
        | ok sig =>
          simp only []
          cases hc : env.confirm with
          | error e => rfl
          | ok _ => rfl

theorem lookup_filter_ne (st : SessionStore) (id : List Char) :
    (st.filter (fun p => p.1 ≠ id)).lookup id = none := by
  induction st with
  | nil => rfl
  | cons p t ih =>
    obtain ⟨k, v⟩ := p
    rw [List.filter_cons]
    by_cases hk : k = id
    · have hd : (decide ((k, v).1 ≠ id)) = false := by simp [hk]
      rw [hd, if_neg (by simp)]
      exact ih
    · have hd : (decide ((k, v).1 ≠ id)) = true := by simp [hk]
      rw [hd, if_pos rfl, List.lookup_cons]
      have hbe : (id == k) = false := by
        simp [Ne.symm hk]
      rw [hbe]
      exact ih

/-- C1: a session is consumed by the first `execute` call that references
it; a second `execute` with the same sessionId — whatever the first call's
outcome and whatever environment the second runs against — fails with
`SessionNotFoundError`. -/
theorem execute_twice_session_not_found (st : SessionStore)
    (env1 env2 : ExecEnv) (req1 req2 : ExecuteTokenRequest)
    (hsid : req2.sessionId = req1.sessionId) :
    (executeTokenTransaction (executeTokenTransaction st env1 req1).2
        env2 req2).1 = .error ExecuteError.sessionNotFound := by
  rw [executeTokenTransaction_store]
  rw [executeTokenTransaction, SessionStore.consume, hsid,
    lookup_filter_ne]

/-- C1 witness. -/
theorem execute_twice_session_not_found_witness :
    ("sess1".toList = "sess1".toList) ∧
    (executeTokenTransaction
        (executeTokenTransaction
          [("sess1".toList, ⟨"Mint".toList, "tx".toList, 0⟩)]
          ⟨fun _ => some "Mint".toList, .ok "sig".toList, .ok ()⟩
          ⟨"sess1".toList, "signedtx".toList⟩).2
        ⟨fun _ => some "Mint".toList, .ok "sig".toList, .ok ()⟩
        ⟨"sess1".toList, "signedtx".toList⟩).1 =
      .error ExecuteError.sessionNotFound :=
  ⟨rfl,
    execute_twice_session_not_found
      [("sess1".toList, ⟨"Mint".toList, "tx".toList, 0⟩)]
      ⟨fun _ => some "Mint".toList, .ok "sig".toList, .ok ()⟩
      ⟨fun _ => some "Mint".toList, .ok "sig".toList, .ok ()⟩
      ⟨"sess1".toList, "signedtx".toList⟩
      ⟨"sess1".toList, "signedtx".toList⟩ rfl⟩

end Launchium
